import Mathlib

/-!
Shallow embedding of the `rusty_file_sync` synchronization engine
(`src/rusty_file_sync/src/main.rs`) and proofs about its claims.

Modelling conventions:
* A filesystem path is its list of components (`Path::join` is list append,
  `Path::strip_prefix` is component-wise prefix removal).
* A directory tree is an association list from root-relative path to node, in
  the top-down depth-first order in which `WalkDir` yields entries; the root
  itself appears under the empty relative path.  Walking a tree is iterating
  this list; `WalkDir` I/O errors do not arise on these in-memory trees.
* `Metadata::modified()` is modelled as always available; a metadata value is
  reduced to the modification time, the only field the program reads.
* A SHA-256 digest is modelled injectively by the digested byte stream (the
  concatenation of the 1024-byte chunks fed to the hasher); the program only
  compares digests for equality, and the spec treats digest equality as
  content equality.
* Wall-clock time is a natural-number counter threaded through each pass;
  every filesystem write stamps the written entry with the current counter and
  advances it (`fs::copy` does not preserve the source modification time).
* The iteration order of the `HashSet` of deletion candidates (line 183) is
  unspecified in Rust; it is exposed as an explicit reordering function `perm`
  so that theorems can quantify over, or instantiate, an admissible order.
-/

namespace RustyFileSync

/-- One path component. -/
abbrev Seg := String

/-- A filesystem path as its list of components.  Paths stored in a tree are
relative to that tree's root; absolute paths are formed by appending a
relative path onto a root's component list. -/
abbrev FsPath := List Seg

/-- A filesystem node: a regular file (byte content, modification time) or a
directory (modification time). -/
inductive FsNode where
  | file (content : List Nat) (mtime : Nat)
  | dir (mtime : Nat)
  deriving DecidableEq

/-- A directory tree: association list from root-relative path to node, listed
in the top-down depth-first order in which `WalkDir` yields entries. -/
abbrev FsTree := List (FsPath × FsNode)

/-- The modification time of a node (`Metadata::modified()`). -/
def nodeMtime : FsNode → Nat
  | .file _ m => m
  | .dir m => m

/-- Look up the node stored at path `p` (`fs::metadata` / `Path::exists`). -/
def getNode (t : FsTree) (p : FsPath) : Option FsNode :=
  match t with
  | [] => none
  | (q, n) :: rest => if q = p then some n else getNode rest p

/-- The relative paths present in a tree. -/
def keys (t : FsTree) : List FsPath := t.map (fun e => e.1)

/-- Component-wise model of `Path::strip_prefix`: remove `root` from the front
of `p`, failing (`StripPrefixError`) when `root` is not a leading prefix. -/
def stripPrefixPath (root p : FsPath) : Option FsPath :=
  match root, p with
  | [], rest => some rest
  | _ :: _, [] => none
  | r :: rs, x :: xs => if r = x then stripPrefixPath rs xs else none

/-- `pathLe p q` holds when `p` is a (not necessarily strict) leading prefix of
`q`, i.e. the entry at `q` lives in the subtree rooted at `p`. -/
def pathLe (p q : FsPath) : Bool :=
  match p, q with
  | [], _ => true
  | _ :: _, [] => false
  | a :: as', b :: bs => if a = b then pathLe as' bs else false

/-- The errors of the program's `SyncError` enum (main.rs lines 105-113). -/
inductive SyncError where
  | fileSystemError
  | pathError
  | walkDirError
  deriving DecidableEq

/-- Filesystem operations the reconciler performs, recorded for the ordering
and idempotence claims. -/
inductive Op where
  | createDir (p : FsPath)
  | copyFile (p : FsPath)
  | removeDir (p : FsPath)
  | removeFile (p : FsPath)
  deriving DecidableEq

/-- Whether an operation deletes a destination entry. -/
def Op.isRemove : Op → Bool
  | .removeDir _ => true
  | .removeFile _ => true
  | _ => false

/-- Accumulate the current chunk (in reverse) with `room` bytes of capacity
left; close the chunk when the 1024-byte buffer is full. -/
def chunkAccum : List Nat → List Nat → Nat → List (List Nat)
  | [], cur, _ => [cur.reverse]
  | b :: rest, cur, 0 => cur.reverse :: chunkAccum rest [b] 1023
  | b :: rest, cur, r + 1 => chunkAccum rest (b :: cur) r

/-- Split a byte stream into the successive chunks of at most 1024 bytes that
the read loop of `calculate_hash` (main.rs lines 118-125) feeds the hasher. -/
def chunkSplit (bs : List Nat) : List (List Nat) :=
  match bs with
  | [] => []
  | b :: rest => chunkAccum rest [b] 1023

/-- The digest the hasher accumulates over the chunks: modelled injectively by
the concatenated byte stream (only digest equality is ever consumed). -/
def hasherDigest (chunks : List (List Nat)) : List Nat := chunks.flatten

/-- Model of `calculate_hash` (main.rs lines 115-128): digest of the regular
file at `p`, read in 1024-byte chunks; `none` models the I/O error when no
readable regular file is at `p` (opening or reading a directory fails). -/
def calculate_hash (t : FsTree) (p : FsPath) : Option (List Nat) :=
  match getNode t p with
  | some (.file c _) => some (hasherDigest (chunkSplit c))
  | _ => none

/-- Model of `is_file_updated` (main.rs lines 130-145).  `src_mtime` is the
source metadata's modification time.  Note that, exactly as in line 137 of the
source, both digest computations of the fallback read `dest_path`. -/
def is_file_updated (src_mtime : Nat) (t : FsTree) (dest_path : FsPath) : Bool :=
  match getNode t dest_path with
  | some destNode =>
      if src_mtime > nodeMtime destNode then true
      else
        match calculate_hash t dest_path, calculate_hash t dest_path with
        | some src_hash, some dest_hash => decide (src_hash ≠ dest_hash)
        | _, _ => true
  | none => true

/-- Replace the node stored at `p` (overwriting write to an existing entry). -/
def replaceNode (t : FsTree) (p : FsPath) (n : FsNode) : FsTree :=
  t.map (fun e => if e.1 = p then (p, n) else e)

/-- One step of `fs::create_dir_all`: ensure a directory exists at `q`,
failing when a regular file occupies `q`. -/
def createDirOne (t : FsTree) (q : FsPath) (now : Nat) : Option FsTree :=
  match getNode t q with
  | some (.file _ _) => none
  | some (.dir _) => some t
  | none => some (t ++ [(q, .dir now)])

/-- Ensure a directory exists at each path of `l` in turn. -/
def createDirList (t : FsTree) (now : Nat) : List FsPath → Option FsTree
  | [] => some t
  | q :: qs =>
      match createDirOne t q now with
      | none => none
      | some t1 => createDirList t1 now qs

/-- The ancestors of `p` from the root down to `p` itself. -/
def prefixList (p : FsPath) : List FsPath :=
  (List.range (p.length + 1)).map (fun i => p.take i)

/-- Model of `fs::create_dir_all`: create every missing ancestor of `p` and
`p` itself, top down; fails when a regular file occupies one of them. -/
def create_dir_all (t : FsTree) (p : FsPath) (now : Nat) : Option FsTree :=
  createDirList t now (prefixList p)

/-- Model of `fs::copy src dest` at destination-relative path `p`: overwrite
an existing regular file, or create the file when its parent directory exists;
fails when a directory occupies `p` or the parent is missing or not a
directory.  The new entry is stamped with the current clock. -/
def fsCopy (t : FsTree) (p : FsPath) (content : List Nat) (now : Nat) : Option FsTree :=
  match getNode t p with
  | some (.dir _) => none
  | some (.file _ _) => some (replaceNode t p (.file content now))
  | none =>
      match p with
      | [] => some (t ++ [([], FsNode.file content now)])
      | _ :: _ =>
          match getNode t p.dropLast with
          | some (.dir _) => some (t ++ [(p, FsNode.file content now)])
          | _ => none

/-- `HashSet::insert` on the snapshot, modelled as an insertion-ordered
duplicate-free list. -/
def snapInsert (l : List FsPath) (p : FsPath) : List FsPath :=
  if p ∈ l then l else l ++ [p]

/-- `HashSet::remove` on the snapshot. -/
def snapRemove (l : List FsPath) (p : FsPath) : List FsPath :=
  l.filter (fun q => decide (q ≠ p))

/-- Model of the snapshot loop (main.rs lines 150-156): walk the destination,
strip the destination root from each absolute entry path, and collect the
relative paths.  The walked absolute path of the entry at relative path `p` is
`destRoot ++ p`. -/
def buildSnapshot (destRoot : FsPath) : FsTree → List FsPath → Except SyncError (List FsPath)
  | [], acc => .ok acc
  | (p, _) :: rest, acc =>
      match stripPrefixPath destRoot (destRoot ++ p) with
      | none => .error .pathError
      | some rel => buildSnapshot destRoot rest (snapInsert acc rel)

/-- State carried through the copy phase of one reconciliation pass. -/
structure PassState where
  dst : FsTree
  clock : Nat
  snap : List FsPath
  ops : List Op
  err : Option SyncError
  deriving DecidableEq

/-- Model of the source walk of `sync_oneway` (main.rs lines 158-180).  For
each source entry: re-relativize its absolute path against the source root
(line 161), drop the joined destination path's relativization from the
snapshot when deletion is enabled (lines 163-165), then create the directory
or copy the file as the staleness check dictates (lines 167-179).  The
destination tree is keyed by destination-root-relative paths, so the absolute
`dest_path = destRoot ++ rel` addresses the node at `rel`. -/
def copyPhase (delete : Bool) (srcRoot destRoot : FsPath) :
    FsTree → FsTree → Nat → List FsPath → List Op → PassState
  | [], t, c, snap, ops => ⟨t, c, snap, ops, none⟩
  | (p, node) :: rest, t, c, snap, ops =>
      match stripPrefixPath srcRoot (srcRoot ++ p) with
      | none => ⟨t, c, snap, ops, some .pathError⟩
      | some rel =>
          match (if delete then stripPrefixPath destRoot (destRoot ++ rel) else some rel) with
          | none => ⟨t, c, snap, ops, some .pathError⟩
          | some rel2 =>
              let snap2 := if delete then snapRemove snap rel2 else snap
              match node with
              | .dir _ =>
                  if (getNode t rel).isSome then
                    copyPhase delete srcRoot destRoot rest t c snap2 ops
                  else
                    match create_dir_all t rel c with
                    | none => ⟨t, c, snap2, ops, some .fileSystemError⟩
                    | some t2 =>
                        copyPhase delete srcRoot destRoot rest t2 (c + 1) snap2
                          (ops ++ [.createDir rel])
              | .file content m =>
                  if !(getNode t rel).isSome || is_file_updated m t rel then
                    match fsCopy t rel content c with
                    | none => ⟨t, c, snap2, ops, some .fileSystemError⟩
                    | some t2 =>
                        copyPhase delete srcRoot destRoot rest t2 (c + 1) snap2
                          (ops ++ [.copyFile rel])
                  else
                    copyPhase delete srcRoot destRoot rest t c snap2 ops

/-- State carried through the deletion phase. -/
structure DelState where
  dst : FsTree
  ops : List Op
  err : Option SyncError
  deriving DecidableEq

/-- Model of the deletion loop (main.rs lines 182-193): for each remaining
snapshot path, `remove_dir_all` the subtree when a directory is currently at
the path, otherwise `remove_file`, which fails with NotFound when nothing is
there any more. -/
def deletePhase : List FsPath → FsTree → List Op → DelState
  | [], t, ops => ⟨t, ops, none⟩
  | p :: rest, t, ops =>
      match getNode t p with
      | some (.dir _) =>
          deletePhase rest (t.filter (fun e => !pathLe p e.1)) (ops ++ [.removeDir p])
      | some (.file _ _) =>
          deletePhase rest (t.filter (fun e => decide (e.1 ≠ p))) (ops ++ [.removeFile p])
      | none => ⟨t, ops, some .fileSystemError⟩

/-- Result of one reconciliation pass. -/
structure OneWayResult where
  dst : FsTree
  clock : Nat
  ops : List Op
  err : Option SyncError
  deriving DecidableEq

/-- Model of `sync_oneway` (main.rs lines 147-196): build the deletion
snapshot when enabled, run the source walk, then delete every snapshot path
not matched during the walk.  `perm` is the unspecified iteration order of the
`HashSet` at line 183, applied to the remaining snapshot. -/
def sync_oneway (perm : List FsPath → List FsPath) (srcRoot destRoot : FsPath)
    (src dst : FsTree) (clock : Nat) (delete : Bool) : OneWayResult :=
  match (if delete then buildSnapshot destRoot dst [] else .ok []) with
  | .error e => ⟨dst, clock, [], some e⟩
  | .ok snap =>
      let ps := copyPhase delete srcRoot destRoot src dst clock snap []
      match ps.err with
      | some e => ⟨ps.dst, ps.clock, ps.ops, some e⟩
      | none =>
          if delete then
            let ds := deletePhase (perm ps.snap) ps.dst ps.ops
            ⟨ds.dst, ps.clock, ds.ops, ds.err⟩
          else
            ⟨ps.dst, ps.clock, ps.ops, none⟩

/-- Result of a bidirectional cycle: both trees, final clock, operations of
both passes, and the first error if any. -/
structure BothResult where
  src : FsTree
  dst : FsTree
  clock : Nat
  ops : List Op
  err : Option SyncError
  deriving DecidableEq

/-- Model of `sync_bothways` (main.rs lines 198-201): a source-to-destination
pass; on its success, a destination-to-source pass over the updated
destination tree.  The `?` on line 199 surfaces the first pass's error and
skips the second pass. -/
def sync_bothways (perm : List FsPath → List FsPath) (srcRoot destRoot : FsPath)
    (src dst : FsTree) (clock : Nat) (delete : Bool) : BothResult :=
  let r1 := sync_oneway perm srcRoot destRoot src dst clock delete
  match r1.err with
  | some e => ⟨src, r1.dst, r1.clock, r1.ops, some e⟩
  | none =>
      let r2 := sync_oneway perm destRoot srcRoot r1.dst src r1.clock delete
      ⟨r2.dst, r1.dst, r2.clock, r1.ops ++ r2.ops, r2.err⟩

/-- The byte content of the regular file at `p`, if one is there. -/
def fileContentAt (t : FsTree) (p : FsPath) : Option (List Nat) :=
  match getNode t p with
  | some (.file c _) => some c
  | _ => none

/-- The four recognized synchronization modes (main.rs lines 70-79). -/
inductive SyncMode where
  | oneWay (delete : Bool)
  | biDir (delete : Bool)
  deriving DecidableEq

/-- Model of the mode dispatch of the run loop (main.rs lines 70-79): the four
recognized mode strings and their policies; anything else is unrecognized. -/
def parseMode (mode : String) : Option SyncMode :=
  if mode = "one" then some (.oneWay true)
  else if mode = "bi" then some (.biDir true)
  else if mode = "one+no_delete" then some (.oneWay false)
  else if mode = "bi+no_delete" then some (.biDir false)
  else none

/-- Model of the spawned sync task (main.rs lines 68-87): before each
iteration it reads the shared flag (the successive values are `flags`); while
the flag is true it dispatches on the mode and runs one cycle, but an
unrecognized mode prints `Invalid mode` and returns from the task before any
cycle.  The result counts the cycles run.  The invalid-mode branch never
writes the shared flag. -/
def syncTaskCycles (mode : String) : List Bool → Nat
  | [] => 0
  | f :: rest =>
      if f then
        match parseMode mode with
        | none => 0
        | some _ => syncTaskCycles mode rest + 1
      else 0

/-- External events that can reach the cancellation flag. -/
inductive UserEvent where
  | interrupt
  | inputLine (s : String)
  deriving DecidableEq

/-- The shared `running` flag (main.rs lines 56-61 and 92-98): initially true,
set false only by the interrupt handler or by reading the literal line `q`;
no other code path writes it. -/
def runningAfter (events : List UserEvent) : Bool :=
  events.all (fun e =>
    match e with
    | .interrupt => false
    | .inputLine s => decide (s ≠ "q"))

/-- The main task's loop (main.rs lines 92-99) keeps the process alive while
the flag is true, so the process has stopped exactly when the flag is down. -/
def processStopped (events : List UserEvent) : Bool := !(runningAfter events)

/-- Whether an optional node is a directory. -/
def isDirNodeOpt : Option FsNode → Bool
  | some (.dir _) => true
  | _ => false

/-- The strict ancestors of `p`, shortest first. -/
def properPrefixes (p : FsPath) : List FsPath :=
  (List.range p.length).map (fun i => p.take i)

/-- Every modification time recorded in the tree is below `c` (the clock has
not been set back). -/
def mtimesBelow (t : FsTree) (c : Nat) : Bool :=
  t.all (fun e => decide (nodeMtime e.2 < c))

/-- A tree as a real directory scan produces it: the root is a directory
entry, paths are unique, and every strict ancestor of an entry is present as a
directory. -/
def wellFormed (t : FsTree) : Bool :=
  isDirNodeOpt (getNode t []) && decide ((keys t).Nodup) &&
    t.all (fun e => (properPrefixes e.1).all (fun q => isDirNodeOpt (getNode t q)))

/-- The destination already reflects the source entry `(p, n)`: for a
directory, something exists at `p`; for a file of modification time `m`, a
regular file no older than `m` is at `p`. -/
def entrySynced (t : FsTree) (p : FsPath) (n : FsNode) : Prop :=
  match n with
  | .dir _ => (getNode t p).isSome = true
  | .file _ m => ∃ c' m', getNode t p = some (.file c' m') ∧ m ≤ m'

/-- No removal operation is followed by a non-removal operation. -/
def removesLast : List Op → Bool
  | [] => true
  | op :: rest => if op.isRemove then rest.all Op.isRemove else removesLast rest

/-- The error is anything but a `PathError`. -/
def notPathError : Option SyncError → Bool
  | some .pathError => false
  | _ => true

/-! ### Path and lookup lemmas -/

theorem stripPre_append (r p : FsPath) : stripPrefixPath r (r ++ p) = some p := by
  induction r with
  | nil => rfl
  | cons a as ih => simp [stripPrefixPath, ih]

theorem pathLe_refl (p : FsPath) : pathLe p p = true := by
  induction p with
  | nil => rfl
  | cons a as ih => simp [pathLe, ih]

theorem pathLe_iff (p q : FsPath) : pathLe p q = true ↔ ∃ s, q = p ++ s := by
  induction p generalizing q with
  | nil => simp [pathLe]
  | cons a as ih =>
      cases q with
      | nil =>
          simp only [pathLe, List.cons_append]
          constructor
          · intro h; cases h
          · rintro ⟨s, hs⟩; cases hs
      | cons b bs =>
          simp only [pathLe, List.cons_append]
          by_cases h : a = b
          · subst h
            rw [if_pos rfl, ih]
            constructor
            · rintro ⟨s, hs⟩
              exact ⟨s, by rw [hs]⟩
            · rintro ⟨s, hs⟩
              injection hs with _ h2
              exact ⟨s, h2⟩
          · rw [if_neg h]
            constructor
            · intro hf; cases hf
            · rintro ⟨s, hs⟩
              injection hs with h1 _
              exact absurd h1.symm h

theorem pathLe_take (p : FsPath) (i : Nat) : pathLe (p.take i) p = true := by
  rw [pathLe_iff]
  exact ⟨p.drop i, (List.take_append_drop i p).symm⟩

theorem pathLe_ne (p q : FsPath) (h : pathLe p q = false) : q ≠ p := by
  intro hq
  subst hq
  rw [pathLe_refl] at h
  cases h

theorem getNode_cons (q : FsPath) (n : FsNode) (rest : FsTree) (p : FsPath) :
    getNode ((q, n) :: rest) p = if q = p then some n else getNode rest p := rfl

theorem keys_cons (q : FsPath) (n : FsNode) (rest : FsTree) :
    keys ((q, n) :: rest) = q :: keys rest := rfl

theorem getNode_eq_none_iff (t : FsTree) (p : FsPath) :
    getNode t p = none ↔ p ∉ keys t := by
  induction t with
  | nil => simp [getNode, keys]
  | cons e rest ih =>
      cases e with
      | mk q n =>
          rw [getNode_cons, keys_cons]
          by_cases h : q = p
          · subst h
            simp
          · rw [if_neg h, ih, List.mem_cons]
            constructor
            · intro hp hor
              rcases hor with h1 | h2
              · exact h h1.symm
              · exact hp h2
            · intro hp h2
              exact hp (Or.inr h2)

theorem getNode_isSome_iff (t : FsTree) (p : FsPath) :
    (getNode t p).isSome = true ↔ p ∈ keys t := by
  constructor
  · intro h
    by_contra hmem
    rw [← getNode_eq_none_iff] at hmem
    rw [hmem] at h
    cases h
  · intro h
    cases hx : getNode t p with
    | some n => rfl
    | none =>
        rw [getNode_eq_none_iff] at hx
        exact absurd h hx

theorem getNode_append (t u : FsTree) (p : FsPath) :
    getNode (t ++ u) p =
      (match getNode t p with
       | some n => some n
       | none => getNode u p) := by
  induction t with
  | nil => simp [getNode]
  | cons e rest ih =>
      cases e with
      | mk q n =>
          rw [List.cons_append, getNode_cons, getNode_cons]
          by_cases h : q = p
          · rw [if_pos h, if_pos h]
          · rw [if_neg h, if_neg h, ih]

theorem getNode_filter_keep (f : FsPath × FsNode → Bool) (t : FsTree) (x : FsPath)
    (h : ∀ n, f (x, n) = true) : getNode (t.filter f) x = getNode t x := by
  induction t with
  | nil => rfl
  | cons e rest ih =>
      cases e with
      | mk q n =>
          rw [List.filter_cons, getNode_cons]
          by_cases hq : q = x
          · subst hq
            rw [h n]
            simp [getNode_cons]
          · by_cases hf : f (q, n) = true
            · rw [if_pos hf, getNode_cons, if_neg hq, if_neg hq, ih]
            · rw [Bool.not_eq_true] at hf
              rw [hf]
              simp only [Bool.false_eq_true, if_false, if_neg hq]
              exact ih

theorem getNode_filter_none (f : FsPath × FsNode → Bool) (t : FsTree) (x : FsPath)
    (h : getNode t x = none) : getNode (t.filter f) x = none := by
  induction t with
  | nil => rfl
  | cons e rest ih =>
      cases e with
      | mk q n =>
          rw [getNode_cons] at h
          by_cases hq : q = x
          · rw [if_pos hq] at h
            cases h
          · rw [if_neg hq] at h
            rw [List.filter_cons]
            by_cases hf : f (q, n) = true
            · rw [if_pos hf, getNode_cons, if_neg hq]
              exact ih h
            · rw [Bool.not_eq_true] at hf
              rw [hf]
              simp only [Bool.false_eq_true, if_false]
              exact ih h

theorem getNode_filter_drop (f : FsPath × FsNode → Bool) (t : FsTree) (x : FsPath)
    (h : ∀ n, f (x, n) = false) : getNode (t.filter f) x = none := by
  induction t with
  | nil => rfl
  | cons e rest ih =>
      cases e with
      | mk q n =>
          rw [List.filter_cons]
          by_cases hq : q = x
          · subst hq
            rw [h n]
            simp only [Bool.false_eq_true, if_false]
            exact ih
          · by_cases hf : f (q, n) = true
            · rw [if_pos hf, getNode_cons, if_neg hq]
              exact ih
            · rw [Bool.not_eq_true] at hf
              rw [hf]
              simp only [Bool.false_eq_true, if_false]
              exact ih

theorem getNode_filter_isSome (f : FsPath × FsNode → Bool) (t : FsTree) (x : FsPath)
    (h : (getNode (t.filter f) x).isSome = true) : (getNode t x).isSome = true := by
  cases hx : getNode t x with
  | some n => rfl
  | none =>
      rw [getNode_filter_none f t x hx] at h
      cases h

theorem keys_append (t u : FsTree) : keys (t ++ u) = keys t ++ keys u := by
  simp [keys]

theorem keys_filter_sublist (f : FsPath × FsNode → Bool) (t : FsTree) :
    (keys (t.filter f)).Sublist (keys t) := by
  unfold keys
  exact List.Sublist.map _ (List.filter_sublist t)

theorem nodup_keys_filter (f : FsPath × FsNode → Bool) (t : FsTree)
    (h : (keys t).Nodup) : (keys (t.filter f)).Nodup :=
  h.sublist (keys_filter_sublist f t)

/-! ### Lemmas about the primitive filesystem writes -/

theorem replaceNode_cons (q : FsPath) (m : FsNode) (rest : FsTree) (p : FsPath) (n : FsNode) :
    replaceNode ((q, m) :: rest) p n =
      (if q = p then (p, n) else (q, m)) :: replaceNode rest p n := rfl

theorem replaceNode_self (t : FsTree) (p : FsPath) (n : FsNode)
    (h : (getNode t p).isSome = true) : getNode (replaceNode t p n) p = some n := by
  induction t with
  | nil => simp [getNode] at h
  | cons e rest ih =>
      cases e with
      | mk q m =>
          rw [replaceNode_cons]
          by_cases hq : q = p
          · rw [if_pos hq, getNode_cons, if_pos rfl]
          · rw [if_neg hq, getNode_cons, if_neg hq]
            rw [getNode_cons, if_neg hq] at h
            exact ih h

theorem replaceNode_other (t : FsTree) (p : FsPath) (n : FsNode) (x : FsPath)
    (hx : x ≠ p) : getNode (replaceNode t p n) x = getNode t x := by
  induction t with
  | nil => rfl
  | cons e rest ih =>
      cases e with
      | mk q m =>
          by_cases hq : q = p
          · subst hq
            rw [replaceNode_cons, if_pos rfl, getNode_cons, if_neg (fun h => hx h.symm),
              getNode_cons, if_neg (fun h => hx h.symm), ih]
          · rw [replaceNode_cons, if_neg hq, getNode_cons, getNode_cons, ih]

theorem keys_replaceNode (t : FsTree) (p : FsPath) (n : FsNode) :
    keys (replaceNode t p n) = keys t := by
  induction t with
  | nil => rfl
  | cons e rest ih =>
      cases e with
      | mk q m =>
          rw [replaceNode_cons]
          by_cases hq : q = p
          · rw [if_pos hq, keys_cons, keys_cons, ih, hq]
          · rw [if_neg hq, keys_cons, keys_cons, ih]

theorem createDirOne_present (t : FsTree) (q : FsPath) (now : Nat) (t' : FsTree)
    (h : createDirOne t q now = some t') (x : FsPath)
    (hx : (getNode t x).isSome = true) : getNode t' x = getNode t x := by
  unfold createDirOne at h
  cases hn : getNode t q with
  | some n =>
      cases n with
      | file c m => rw [hn] at h; cases h
      | dir m =>
          rw [hn] at h
          injection h with h
          subst h
          rfl
  | none =>
      rw [hn] at h
      injection h with h
      subst h
      cases hgx : getNode t x with
      | some n => rw [getNode_append, hgx]
      | none => rw [hgx] at hx; cases hx

theorem createDirOne_sets (t : FsTree) (q : FsPath) (now : Nat) (t' : FsTree)
    (h : createDirOne t q now = some t') : (getNode t' q).isSome = true := by
  unfold createDirOne at h
  cases hn : getNode t q with
  | some n =>
      cases n with
      | file c m => rw [hn] at h; cases h
      | dir m =>
          rw [hn] at h
          injection h with h
          subst h
          rw [hn]
          rfl
  | none =>
      rw [hn] at h
      injection h with h
      subst h
      rw [getNode_append, hn]
      simp [getNode]

theorem createDirOne_new (t : FsTree) (q : FsPath) (now : Nat) (t' : FsTree)
    (h : createDirOne t q now = some t') (x : FsPath)
    (hx : (getNode t' x).isSome = true) : (getNode t x).isSome = true ∨ x = q := by
  unfold createDirOne at h
  cases hn : getNode t q with
  | some n =>
      cases n with
      | file c m => rw [hn] at h; cases h
      | dir m =>
          rw [hn] at h
          injection h with h
          subst h
          exact Or.inl hx
  | none =>
      rw [hn] at h
      injection h with h
      subst h
      rw [getNode_append] at hx
      cases hgx : getNode t x with
      | some n => exact Or.inl rfl
      | none =>
          rw [hgx] at hx
          simp only [getNode] at hx
          by_cases hq : q = x
          · exact Or.inr hq.symm
          · rw [if_neg hq] at hx
            cases hx

theorem keys_singleton (q : FsPath) (n : FsNode) : keys [(q, n)] = [q] := rfl

theorem nodup_keys_concat (t : FsTree) (q : FsPath) (n : FsNode)
    (hk : (keys t).Nodup) (hq : q ∉ keys t) : (keys (t ++ [(q, n)])).Nodup := by
  rw [keys_append, keys_singleton]
  refine List.Nodup.append hk (List.nodup_singleton q) ?_
  intro a ha hb
  rw [List.mem_singleton] at hb
  subst hb
  exact hq ha

theorem createDirOne_nodup (t : FsTree) (q : FsPath) (now : Nat) (t' : FsTree)
    (h : createDirOne t q now = some t') (hk : (keys t).Nodup) : (keys t').Nodup := by
  unfold createDirOne at h
  cases hn : getNode t q with
  | some n =>
      cases n with
      | file c m => rw [hn] at h; cases h
      | dir m =>
          rw [hn] at h
          injection h with h
          subst h
          exact hk
  | none =>
      rw [hn] at h
      injection h with h
      subst h
      exact nodup_keys_concat t q _ hk ((getNode_eq_none_iff t q).1 hn)

theorem createDirList_present (l : List FsPath) (t : FsTree) (now : Nat) (t' : FsTree)
    (h : createDirList t now l = some t') (x : FsPath)
    (hx : (getNode t x).isSome = true) : getNode t' x = getNode t x := by
  induction l generalizing t with
  | nil =>
      unfold createDirList at h
      injection h with h
      subst h
      rfl
  | cons q qs ih =>
      unfold createDirList at h
      cases hc : createDirOne t q now with
      | none => rw [hc] at h; cases h
      | some t1 =>
          rw [hc] at h
          have step := createDirOne_present t q now t1 hc x hx
          have hx1 : (getNode t1 x).isSome = true := by rw [step]; exact hx
          rw [ih t1 h hx1, step]

theorem createDirList_mem (l : List FsPath) (t : FsTree) (now : Nat) (t' : FsTree)
    (h : createDirList t now l = some t') (q : FsPath) (hq : q ∈ l) :
    (getNode t' q).isSome = true := by
  induction l generalizing t with
  | nil => cases hq
  | cons a as ih =>
      unfold createDirList at h
      cases hc : createDirOne t a now with
      | none => rw [hc] at h; cases h
      | some t1 =>
          rw [hc] at h
          rcases List.mem_cons.1 hq with h1 | h2
          · subst h1
            have hs := createDirOne_sets t q now t1 hc
            rw [createDirList_present as t1 now t' h q hs]
            exact hs
          · exact ih t1 h h2

theorem createDirList_new (l : List FsPath) (t : FsTree) (now : Nat) (t' : FsTree)
    (h : createDirList t now l = some t') (x : FsPath)
    (hx : (getNode t' x).isSome = true) : (getNode t x).isSome = true ∨ x ∈ l := by
  induction l generalizing t with
  | nil =>
      unfold createDirList at h
      injection h with h
      subst h
      exact Or.inl hx
  | cons q qs ih =>
      unfold createDirList at h
      cases hc : createDirOne t q now with
      | none => rw [hc] at h; cases h
      | some t1 =>
          rw [hc] at h
          rcases ih t1 h with h1 | h2
          · rcases createDirOne_new t q now t1 hc x h1 with h3 | h4
            · exact Or.inl h3
            · exact Or.inr (by rw [h4]; exact List.mem_cons_self q qs)
          · exact Or.inr (List.mem_cons_of_mem q h2)

theorem createDirList_nodup (l : List FsPath) (t : FsTree) (now : Nat) (t' : FsTree)
    (h : createDirList t now l = some t') (hk : (keys t).Nodup) : (keys t').Nodup := by
  induction l generalizing t with
  | nil =>
      unfold createDirList at h
      injection h with h
      subst h
      exact hk
  | cons q qs ih =>
      unfold createDirList at h
      cases hc : createDirOne t q now with
      | none => rw [hc] at h; cases h
      | some t1 =>
          rw [hc] at h
          exact ih t1 h (createDirOne_nodup t q now t1 hc hk)

theorem mem_prefixList_self (p : FsPath) : p ∈ prefixList p := by
  unfold prefixList
  rw [List.mem_map]
  exact ⟨p.length, by rw [List.mem_range]; omega, by simp⟩

theorem mem_prefixList_pathLe (p x : FsPath) (h : x ∈ prefixList p) : pathLe x p = true := by
  unfold prefixList at h
  rw [List.mem_map] at h
  obtain ⟨i, _, hi⟩ := h
  rw [← hi]
  exact pathLe_take p i

theorem cda_present (t : FsTree) (p : FsPath) (now : Nat) (t' : FsTree)
    (h : create_dir_all t p now = some t') (x : FsPath)
    (hx : (getNode t x).isSome = true) : getNode t' x = getNode t x :=
  createDirList_present (prefixList p) t now t' h x hx

theorem cda_sets (t : FsTree) (p : FsPath) (now : Nat) (t' : FsTree)
    (h : create_dir_all t p now = some t') : (getNode t' p).isSome = true :=
  createDirList_mem (prefixList p) t now t' h p (mem_prefixList_self p)

theorem cda_new (t : FsTree) (p : FsPath) (now : Nat) (t' : FsTree)
    (h : create_dir_all t p now = some t') (x : FsPath)
    (hx : (getNode t' x).isSome = true) :
    (getNode t x).isSome = true ∨ pathLe x p = true := by
  rcases createDirList_new (prefixList p) t now t' h x hx with h1 | h2
  · exact Or.inl h1
  · exact Or.inr (mem_prefixList_pathLe p x h2)

theorem cda_nodup (t : FsTree) (p : FsPath) (now : Nat) (t' : FsTree)
    (h : create_dir_all t p now = some t') (hk : (keys t).Nodup) : (keys t').Nodup :=
  createDirList_nodup (prefixList p) t now t' h hk

theorem fsCopy_sets (t : FsTree) (p : FsPath) (content : List Nat) (now : Nat) (t' : FsTree)
    (h : fsCopy t p content now = some t') : getNode t' p = some (.file content now) := by
  unfold fsCopy at h
  cases hn : getNode t p with
  | some n =>
      cases n with
      | dir m => rw [hn] at h; cases h
      | file c m =>
          rw [hn] at h
          injection h with h
          subst h
          exact replaceNode_self t p _ (by rw [hn]; rfl)
  | none =>
      rw [hn] at h
      cases p with
      | nil =>
          injection h with h
          subst h
          rw [getNode_append, hn]
          simp [getNode]
      | cons a as =>
          cases hd : getNode t (a :: as).dropLast with
          | none => rw [hd] at h; cases h
          | some dn =>
              cases dn with
              | file c m => rw [hd] at h; cases h
              | dir m =>
                  rw [hd] at h
                  injection h with h
                  subst h
                  rw [getNode_append, hn]
                  simp [getNode]

theorem fsCopy_other (t : FsTree) (p : FsPath) (content : List Nat) (now : Nat) (t' : FsTree)
    (h : fsCopy t p content now = some t') (x : FsPath) (hx : x ≠ p) :
    getNode t' x = getNode t x := by
  unfold fsCopy at h
  cases hn : getNode t p with
  | some n =>
      cases n with
      | dir m => rw [hn] at h; cases h
      | file c m =>
          rw [hn] at h
          injection h with h
          subst h
          exact replaceNode_other t p _ x hx
  | none =>
      rw [hn] at h
      have happ : ∀ u : FsTree, u = t ++ [(p, FsNode.file content now)] →
          getNode u x = getNode t x := by
        intro u hu
        subst hu
        rw [getNode_append]
        cases hgx : getNode t x with
        | some n => rfl
        | none =>
            show getNode [(p, FsNode.file content now)] x = none
            rw [getNode_cons, if_neg (fun hc : p = x => hx hc.symm)]
            rfl
      cases p with
      | nil =>
          injection h with h
          exact happ _ h.symm
      | cons a as =>
          cases hd : getNode t (a :: as).dropLast with
          | none => rw [hd] at h; cases h
          | some dn =>
              cases dn with
              | file c m => rw [hd] at h; cases h
              | dir m =>
                  rw [hd] at h
                  injection h with h
                  exact happ _ h.symm

theorem fsCopy_new (t : FsTree) (p : FsPath) (content : List Nat) (now : Nat) (t' : FsTree)
    (h : fsCopy t p content now = some t') (x : FsPath)
    (hx : (getNode t' x).isSome = true) : (getNode t x).isSome = true ∨ x = p := by
  by_cases hxp : x = p
  · exact Or.inr hxp
  · rw [fsCopy_other t p content now t' h x hxp] at hx
    exact Or.inl hx

theorem fsCopy_nodup (t : FsTree) (p : FsPath) (content : List Nat) (now : Nat) (t' : FsTree)
    (h : fsCopy t p content now = some t') (hk : (keys t).Nodup) : (keys t').Nodup := by
  unfold fsCopy at h
  cases hn : getNode t p with
  | some n =>
      cases n with
      | dir m => rw [hn] at h; cases h
      | file c m =>
          rw [hn] at h
          injection h with h
          subst h
          rw [keys_replaceNode]
          exact hk
  | none =>
      rw [hn] at h
      have hmem : p ∉ keys t := (getNode_eq_none_iff t p).1 hn
      have happ : ∀ u : FsTree, u = t ++ [(p, FsNode.file content now)] →
          (keys u).Nodup := by
        intro u hu
        subst hu
        exact nodup_keys_concat t p _ hk hmem
      cases p with
      | nil =>
          injection h with h
          exact happ _ h.symm
      | cons a as =>
          cases hd : getNode t (a :: as).dropLast with
          | none => rw [hd] at h; cases h
          | some dn =>
              cases dn with
              | file c m => rw [hd] at h; cases h
              | dir m =>
                  rw [hd] at h
                  injection h with h
                  exact happ _ h.symm

/-! ### Stepping lemmas for the copy phase -/

theorem copyPhase_nil (δ : Bool) (sr dr : FsPath) (t : FsTree) (c : Nat)
    (s : List FsPath) (o : List Op) :
    copyPhase δ sr dr [] t c s o = ⟨t, c, s, o, none⟩ := rfl

theorem copyPhase_cons (δ : Bool) (sr dr : FsPath) (p : FsPath) (n : FsNode)
    (rest : FsTree) (t : FsTree) (c : Nat) (s : List FsPath) (o : List Op) :
    copyPhase δ sr dr ((p, n) :: rest) t c s o =
      (match n with
       | .dir _ =>
           if (getNode t p).isSome then
             copyPhase δ sr dr rest t c (if δ then snapRemove s p else s) o
           else
             match create_dir_all t p c with
             | none => ⟨t, c, (if δ then snapRemove s p else s), o, some .fileSystemError⟩
             | some t2 =>
                 copyPhase δ sr dr rest t2 (c + 1) (if δ then snapRemove s p else s)
                   (o ++ [.createDir p])
       | .file content m =>
           if !(getNode t p).isSome || is_file_updated m t p then
             match fsCopy t p content c with
             | none => ⟨t, c, (if δ then snapRemove s p else s), o, some .fileSystemError⟩
             | some t2 =>
                 copyPhase δ sr dr rest t2 (c + 1) (if δ then snapRemove s p else s)
                   (o ++ [.copyFile p])
           else copyPhase δ sr dr rest t c (if δ then snapRemove s p else s) o) := by
  simp only [copyPhase, stripPre_append, ite_self]

theorem copyPhase_cons_dir_skip (δ : Bool) (sr dr : FsPath) (p : FsPath) (m : Nat)
    (rest : FsTree) (t : FsTree) (c : Nat) (s : List FsPath) (o : List Op)
    (hex : (getNode t p).isSome = true) :
    copyPhase δ sr dr ((p, .dir m) :: rest) t c s o =
      copyPhase δ sr dr rest t c (if δ then snapRemove s p else s) o := by
  rw [copyPhase_cons]
  simp only [hex, if_true]

theorem copyPhase_cons_dir_create (δ : Bool) (sr dr : FsPath) (p : FsPath) (m : Nat)
    (rest : FsTree) (t : FsTree) (c : Nat) (s : List FsPath) (o : List Op) (t2 : FsTree)
    (hex : (getNode t p).isSome = false) (hc : create_dir_all t p c = some t2) :
    copyPhase δ sr dr ((p, .dir m) :: rest) t c s o =
      copyPhase δ sr dr rest t2 (c + 1) (if δ then snapRemove s p else s)
        (o ++ [.createDir p]) := by
  rw [copyPhase_cons]
  simp only [hex, Bool.false_eq_true, if_false, hc]

theorem copyPhase_cons_dir_err (δ : Bool) (sr dr : FsPath) (p : FsPath) (m : Nat)
    (rest : FsTree) (t : FsTree) (c : Nat) (s : List FsPath) (o : List Op)
    (hex : (getNode t p).isSome = false) (hc : create_dir_all t p c = none) :
    copyPhase δ sr dr ((p, .dir m) :: rest) t c s o =
      ⟨t, c, (if δ then snapRemove s p else s), o, some .fileSystemError⟩ := by
  rw [copyPhase_cons]
  simp only [hex, Bool.false_eq_true, if_false, hc]

theorem copyPhase_cons_file_copy (δ : Bool) (sr dr : FsPath) (p : FsPath)
    (content : List Nat) (m : Nat) (rest : FsTree) (t : FsTree) (c : Nat)
    (s : List FsPath) (o : List Op) (t2 : FsTree)
    (hg : (!(getNode t p).isSome || is_file_updated m t p) = true)
    (hc : fsCopy t p content c = some t2) :
    copyPhase δ sr dr ((p, .file content m) :: rest) t c s o =
      copyPhase δ sr dr rest t2 (c + 1) (if δ then snapRemove s p else s)
        (o ++ [.copyFile p]) := by
  rw [copyPhase_cons]
  simp only [hg, if_true, hc]

theorem copyPhase_cons_file_err (δ : Bool) (sr dr : FsPath) (p : FsPath)
    (content : List Nat) (m : Nat) (rest : FsTree) (t : FsTree) (c : Nat)
    (s : List FsPath) (o : List Op)
    (hg : (!(getNode t p).isSome || is_file_updated m t p) = true)
    (hc : fsCopy t p content c = none) :
    copyPhase δ sr dr ((p, .file content m) :: rest) t c s o =
      ⟨t, c, (if δ then snapRemove s p else s), o, some .fileSystemError⟩ := by
  rw [copyPhase_cons]
  simp only [hg, if_true, hc]

theorem copyPhase_cons_file_skip (δ : Bool) (sr dr : FsPath) (p : FsPath)
    (content : List Nat) (m : Nat) (rest : FsTree) (t : FsTree) (c : Nat)
    (s : List FsPath) (o : List Op)
    (hg : (!(getNode t p).isSome || is_file_updated m t p) = false) :
    copyPhase δ sr dr ((p, .file content m) :: rest) t c s o =
      copyPhase δ sr dr rest t c (if δ then snapRemove s p else s) o := by
  rw [copyPhase_cons]
  simp only [hg, Bool.false_eq_true, if_false]

/-! ### Invariants of the copy phase -/

theorem copyPhase_clock_le (δ : Bool) (sr dr : FsPath) (l : FsTree) (t : FsTree)
    (c : Nat) (s : List FsPath) (o : List Op) :
    c ≤ (copyPhase δ sr dr l t c s o).clock := by
  induction l generalizing t c s o with
  | nil => rw [copyPhase_nil]
  | cons e rest ih =>
      cases e with
      | mk p n =>
          cases n with
          | dir m =>
              cases hex : (getNode t p).isSome with
              | true =>
                  rw [copyPhase_cons_dir_skip δ sr dr p m rest t c s o hex]
                  exact ih t c _ o
              | false =>
                  cases hc : create_dir_all t p c with
                  | none => rw [copyPhase_cons_dir_err δ sr dr p m rest t c s o hex hc]
                  | some t2 =>
                      rw [copyPhase_cons_dir_create δ sr dr p m rest t c s o t2 hex hc]
                      exact le_trans (Nat.le_succ c) (ih t2 (c + 1) _ _)
          | file content m =>
              cases hg : (!(getNode t p).isSome || is_file_updated m t p) with
              | false =>
                  rw [copyPhase_cons_file_skip δ sr dr p content m rest t c s o hg]
                  exact ih t c _ o
              | true =>
                  cases hc : fsCopy t p content c with
                  | none => rw [copyPhase_cons_file_err δ sr dr p content m rest t c s o hg hc]
                  | some t2 =>
                      rw [copyPhase_cons_file_copy δ sr dr p content m rest t c s o t2 hg hc]
                      exact le_trans (Nat.le_succ c) (ih t2 (c + 1) _ _)

theorem copyPhase_preserve (δ : Bool) (sr dr : FsPath) (l : FsTree) (t : FsTree)
    (c : Nat) (s : List FsPath) (o : List Op) (x : FsPath)
    (hk : x ∉ keys l) (hx : (getNode t x).isSome = true) :
    getNode (copyPhase δ sr dr l t c s o).dst x = getNode t x := by
  induction l generalizing t c s o with
  | nil => rw [copyPhase_nil]
  | cons e rest ih =>
      cases e with
      | mk p n =>
          rw [keys_cons, List.mem_cons] at hk
          push_neg at hk
          obtain ⟨hxp, hkr⟩ := hk
          cases n with
          | dir m =>
              cases hex : (getNode t p).isSome with
              | true =>
                  rw [copyPhase_cons_dir_skip δ sr dr p m rest t c s o hex]
                  exact ih t c _ o hkr hx
              | false =>
                  cases hc : create_dir_all t p c with
                  | none => rw [copyPhase_cons_dir_err δ sr dr p m rest t c s o hex hc]
                  | some t2 =>
                      rw [copyPhase_cons_dir_create δ sr dr p m rest t c s o t2 hex hc]
                      have hpr := cda_present t p c t2 hc x hx
                      have hx2 : (getNode t2 x).isSome = true := by rw [hpr]; exact hx
                      rw [ih t2 (c + 1) _ _ hkr hx2, hpr]
          | file content m =>
              cases hg : (!(getNode t p).isSome || is_file_updated m t p) with
              | false =>
                  rw [copyPhase_cons_file_skip δ sr dr p content m rest t c s o hg]
                  exact ih t c _ o hkr hx
              | true =>
                  cases hc : fsCopy t p content c with
                  | none => rw [copyPhase_cons_file_err δ sr dr p content m rest t c s o hg hc]
                  | some t2 =>
                      rw [copyPhase_cons_file_copy δ sr dr p content m rest t c s o t2 hg hc]
                      have hpr := fsCopy_other t p content c t2 hc x hxp
                      have hx2 : (getNode t2 x).isSome = true := by rw [hpr]; exact hx
                      rw [ih t2 (c + 1) _ _ hkr hx2, hpr]

theorem copyPhase_new (δ : Bool) (sr dr : FsPath) (l : FsTree) (t : FsTree)
    (c : Nat) (s : List FsPath) (o : List Op) (x : FsPath)
    (hx : (getNode (copyPhase δ sr dr l t c s o).dst x).isSome = true) :
    (getNode t x).isSome = true ∨ ∃ p, p ∈ keys l ∧ pathLe x p = true := by
  induction l generalizing t c s o with
  | nil =>
      rw [copyPhase_nil] at hx
      exact Or.inl hx
  | cons e rest ih =>
      cases e with
      | mk p n =>
          have tail : ∀ t' : FsTree, ((getNode t' x).isSome = true →
              (getNode t x).isSome = true ∨ pathLe x p = true) →
              ((getNode t' x).isSome = true ∨ ∃ q, q ∈ keys rest ∧ pathLe x q = true) →
              (getNode t x).isSome = true ∨ ∃ q, q ∈ keys ((p, n) :: rest) ∧ pathLe x q = true := by
            intro t' hstep hres
            rcases hres with h1 | ⟨q, hq, hle⟩
            · rcases hstep h1 with h2 | h2
              · exact Or.inl h2
              · exact Or.inr ⟨p, by rw [keys_cons]; exact List.mem_cons_self p (keys rest), h2⟩
            · exact Or.inr ⟨q, by rw [keys_cons]; exact List.mem_cons_of_mem p hq, hle⟩
          cases n with
          | dir m =>
              cases hex : (getNode t p).isSome with
              | true =>
                  rw [copyPhase_cons_dir_skip δ sr dr p m rest t c s o hex] at hx
                  exact tail t (fun h => Or.inl h) (ih t c _ o hx)
              | false =>
                  cases hc : create_dir_all t p c with
                  | none =>
                      rw [copyPhase_cons_dir_err δ sr dr p m rest t c s o hex hc] at hx
                      exact Or.inl hx
                  | some t2 =>
                      rw [copyPhase_cons_dir_create δ sr dr p m rest t c s o t2 hex hc] at hx
                      exact tail t2 (fun h => cda_new t p c t2 hc x h) (ih t2 (c + 1) _ _ hx)
          | file content m =>
              cases hg : (!(getNode t p).isSome || is_file_updated m t p) with
              | false =>
                  rw [copyPhase_cons_file_skip δ sr dr p content m rest t c s o hg] at hx
                  exact tail t (fun h => Or.inl h) (ih t c _ o hx)
              | true =>
                  cases hc : fsCopy t p content c with
                  | none =>
                      rw [copyPhase_cons_file_err δ sr dr p content m rest t c s o hg hc] at hx
                      exact Or.inl hx
                  | some t2 =>
                      rw [copyPhase_cons_file_copy δ sr dr p content m rest t c s o t2 hg hc] at hx
                      refine tail t2 (fun h => ?_) (ih t2 (c + 1) _ _ hx)
                      rcases fsCopy_new t p content c t2 hc x h with h1 | h1
                      · exact Or.inl h1
                      · exact Or.inr (by rw [h1]; exact pathLe_refl p)

theorem copyPhase_nodup (δ : Bool) (sr dr : FsPath) (l : FsTree) (t : FsTree)
    (c : Nat) (s : List FsPath) (o : List Op)
    (hk : (keys t).Nodup) : (keys (copyPhase δ sr dr l t c s o).dst).Nodup := by
  induction l generalizing t c s o with
  | nil => rw [copyPhase_nil]; exact hk
  | cons e rest ih =>
      cases e with
      | mk p n =>
          cases n with
          | dir m =>
              cases hex : (getNode t p).isSome with
              | true =>
                  rw [copyPhase_cons_dir_skip δ sr dr p m rest t c s o hex]
                  exact ih t c _ o hk
              | false =>
                  cases hc : create_dir_all t p c with
                  | none =>
                      rw [copyPhase_cons_dir_err δ sr dr p m rest t c s o hex hc]
                      exact hk
                  | some t2 =>
                      rw [copyPhase_cons_dir_create δ sr dr p m rest t c s o t2 hex hc]
                      exact ih t2 (c + 1) _ _ (cda_nodup t p c t2 hc hk)
          | file content m =>
              cases hg : (!(getNode t p).isSome || is_file_updated m t p) with
              | false =>
                  rw [copyPhase_cons_file_skip δ sr dr p content m rest t c s o hg]
                  exact ih t c _ o hk
              | true =>
                  cases hc : fsCopy t p content c with
                  | none =>
                      rw [copyPhase_cons_file_err δ sr dr p content m rest t c s o hg hc]
                      exact hk
                  | some t2 =>
                      rw [copyPhase_cons_file_copy δ sr dr p content m rest t c s o t2 hg hc]
                      exact ih t2 (c + 1) _ _ (fsCopy_nodup t p content c t2 hc hk)

theorem copyPhase_err_kind (δ : Bool) (sr dr : FsPath) (l : FsTree) (t : FsTree)
    (c : Nat) (s : List FsPath) (o : List Op) :
    (copyPhase δ sr dr l t c s o).err = none ∨
      (copyPhase δ sr dr l t c s o).err = some .fileSystemError := by
  induction l generalizing t c s o with
  | nil => exact Or.inl rfl
  | cons e rest ih =>
      cases e with
      | mk p n =>
          cases n with
          | dir m =>
              cases hex : (getNode t p).isSome with
              | true =>
                  rw [copyPhase_cons_dir_skip δ sr dr p m rest t c s o hex]
                  exact ih t c _ o
              | false =>
                  cases hc : create_dir_all t p c with
                  | none =>
                      rw [copyPhase_cons_dir_err δ sr dr p m rest t c s o hex hc]
                      exact Or.inr rfl
                  | some t2 =>
                      rw [copyPhase_cons_dir_create δ sr dr p m rest t c s o t2 hex hc]
                      exact ih t2 (c + 1) _ _
          | file content m =>
              cases hg : (!(getNode t p).isSome || is_file_updated m t p) with
              | false =>
                  rw [copyPhase_cons_file_skip δ sr dr p content m rest t c s o hg]
                  exact ih t c _ o
              | true =>
                  cases hc : fsCopy t p content c with
                  | none =>
                      rw [copyPhase_cons_file_err δ sr dr p content m rest t c s o hg hc]
                      exact Or.inr rfl
                  | some t2 =>
                      rw [copyPhase_cons_file_copy δ sr dr p content m rest t c s o t2 hg hc]
                      exact ih t2 (c + 1) _ _

theorem copyPhase_ops_nonremove (δ : Bool) (sr dr : FsPath) (l : FsTree) (t : FsTree)
    (c : Nat) (s : List FsPath) (o : List Op)
    (ho : ∀ op ∈ o, op.isRemove = false) :
    ∀ op ∈ (copyPhase δ sr dr l t c s o).ops, op.isRemove = false := by
  induction l generalizing t c s o with
  | nil => rw [copyPhase_nil]; exact ho
  | cons e rest ih =>
      cases e with
      | mk p n =>
          have hpush : ∀ (op' : Op), op'.isRemove = false →
              ∀ op ∈ o ++ [op'], op.isRemove = false := by
            intro op' hop' op hm
            rcases List.mem_append.1 hm with h1 | h1
            · exact ho op h1
            · rw [List.mem_singleton] at h1
              rw [h1]
              exact hop'
          cases n with
          | dir m =>
              cases hex : (getNode t p).isSome with
              | true =>
                  rw [copyPhase_cons_dir_skip δ sr dr p m rest t c s o hex]
                  exact ih t c _ o ho
              | false =>
                  cases hc : create_dir_all t p c with
                  | none =>
                      rw [copyPhase_cons_dir_err δ sr dr p m rest t c s o hex hc]
                      exact ho
                  | some t2 =>
                      rw [copyPhase_cons_dir_create δ sr dr p m rest t c s o t2 hex hc]
                      exact ih t2 (c + 1) _ _ (hpush (.createDir p) rfl)
          | file content m =>
              cases hg : (!(getNode t p).isSome || is_file_updated m t p) with
              | false =>
                  rw [copyPhase_cons_file_skip δ sr dr p content m rest t c s o hg]
                  exact ih t c _ o ho
              | true =>
                  cases hc : fsCopy t p content c with
                  | none =>
                      rw [copyPhase_cons_file_err δ sr dr p content m rest t c s o hg hc]
                      exact ho
                  | some t2 =>
                      rw [copyPhase_cons_file_copy δ sr dr p content m rest t c s o t2 hg hc]
                      exact ih t2 (c + 1) _ _ (hpush (.copyFile p) rfl)

/-! ### Staleness-check lemmas -/

theorem is_file_updated_no_dest (m : Nat) (t : FsTree) (p : FsPath)
    (h : getNode t p = none) : is_file_updated m t p = true := by
  simp only [is_file_updated, h]

theorem is_file_updated_newer (m : Nat) (t : FsTree) (p : FsPath) (n : FsNode)
    (h : getNode t p = some n) (hm : m > nodeMtime n) : is_file_updated m t p = true := by
  simp only [is_file_updated, h]
  rw [if_pos hm]

theorem is_file_updated_hash_fail (m : Nat) (t : FsTree) (p : FsPath) (n : FsNode)
    (h : getNode t p = some n) (hm : ¬ m > nodeMtime n)
    (hh : calculate_hash t p = none) : is_file_updated m t p = true := by
  simp only [is_file_updated, h, hh]
  rw [if_neg hm]

theorem calculate_hash_file (t : FsTree) (p : FsPath) (c0 : List Nat) (m0 : Nat)
    (h : getNode t p = some (.file c0 m0)) :
    calculate_hash t p = some (hasherDigest (chunkSplit c0)) := by
  simp only [calculate_hash, h]

theorem is_file_updated_file_stale (m : Nat) (t : FsTree) (p : FsPath)
    (c0 : List Nat) (m0 : Nat) (h : getNode t p = some (.file c0 m0))
    (hm : ¬ m > m0) : is_file_updated m t p = false := by
  simp only [is_file_updated, h, calculate_hash_file t p c0 m0 h]
  rw [if_neg (by simpa [nodeMtime] using hm)]
  simp

theorem not_updated_spec (m : Nat) (t : FsTree) (p : FsPath)
    (h : is_file_updated m t p = false) :
    ∃ c0 m0, getNode t p = some (.file c0 m0) ∧ m ≤ m0 := by
  cases hn : getNode t p with
  | none => rw [is_file_updated_no_dest m t p hn] at h; cases h
  | some n =>
      cases n with
      | dir md =>
          by_cases hm : m > nodeMtime (FsNode.dir md)
          · rw [is_file_updated_newer m t p _ hn hm] at h; cases h
          · have hh : calculate_hash t p = none := by simp only [calculate_hash, hn]
            rw [is_file_updated_hash_fail m t p _ hn hm hh] at h; cases h
      | file c0 m0 =>
          by_cases hm : m > m0
          · rw [is_file_updated_newer m t p _ hn (by simpa [nodeMtime] using hm)] at h
            cases h
          · exact ⟨c0, m0, rfl, by omega⟩

/-! ### Well-formedness lemmas -/

theorem isDirNodeOpt_isSome (x : Option FsNode) (h : isDirNodeOpt x = true) :
    x.isSome = true := by
  cases x with
  | none => cases h
  | some n => rfl

theorem wellFormed_nodup (t : FsTree) (h : wellFormed t = true) : (keys t).Nodup := by
  unfold wellFormed at h
  rw [Bool.and_eq_true, Bool.and_eq_true] at h
  exact of_decide_eq_true h.1.2

theorem wellFormed_closed (t : FsTree) (h : wellFormed t = true) (x q : FsPath)
    (hx : x ∈ keys t) (hq : pathLe q x = true) : q ∈ keys t := by
  rcases (pathLe_iff q x).1 hq with ⟨suf, hsuf⟩
  cases suf with
  | nil =>
      rw [List.append_nil] at hsuf
      exact hsuf ▸ hx
  | cons b bs =>
      have hqx : q = x.take q.length := by rw [hsuf, List.take_left]
      have hlen : q.length < x.length := by
        rw [hsuf, List.length_append, List.length_cons]
        omega
      have hmemp : q ∈ properPrefixes x := by
        unfold properPrefixes
        rw [List.mem_map]
        exact ⟨q.length, List.mem_range.2 hlen, hqx.symm⟩
      unfold wellFormed at h
      rw [Bool.and_eq_true, Bool.and_eq_true, List.all_eq_true] at h
      obtain ⟨e, he, hfst⟩ := List.mem_map.1 hx
      have hall := h.2 e he
      rw [List.all_eq_true] at hall
      have hdir := hall q (by rw [hfst]; exact hmemp)
      rw [← getNode_isSome_iff]
      exact isDirNodeOpt_isSome _ hdir

theorem mtimesBelow_cons (p : FsPath) (n : FsNode) (rest : FsTree) (c : Nat) :
    mtimesBelow ((p, n) :: rest) c = (decide (nodeMtime n < c) && mtimesBelow rest c) := by
  simp [mtimesBelow]

theorem mtimesBelow_mono (t : FsTree) (c c' : Nat) (h : mtimesBelow t c = true)
    (hcc : c ≤ c') : mtimesBelow t c' = true := by
  unfold mtimesBelow at *
  rw [List.all_eq_true] at *
  intro e he
  have := of_decide_eq_true (h e he)
  exact decide_eq_true (by omega)

/-! ### Snapshot lemmas -/

theorem buildSnapshot_eq (root : FsPath) (l : FsTree) (acc : List FsPath) :
    buildSnapshot root l acc = .ok (l.foldl (fun a e => snapInsert a e.1) acc) := by
  induction l generalizing acc with
  | nil => rfl
  | cons e rest ih =>
      cases e with
      | mk p n =>
          show buildSnapshot root ((p, n) :: rest) acc = _
          simp only [buildSnapshot, stripPre_append]
          rw [ih]
          rfl

theorem foldl_snapInsert_fresh (l : FsTree) (acc : List FsPath)
    (hd : ∀ x ∈ keys l, x ∉ acc) (hn : (keys l).Nodup) :
    l.foldl (fun a e => snapInsert a e.1) acc = acc ++ keys l := by
  induction l generalizing acc with
  | nil => simp [keys]
  | cons e rest ih =>
      cases e with
      | mk p n =>
          rw [keys_cons] at hd hn ⊢
          have hp : p ∉ acc := hd p (List.mem_cons_self p (keys rest))
          have hstep : snapInsert acc p = acc ++ [p] := by
            unfold snapInsert
            rw [if_neg hp]
          rw [List.foldl_cons]
          show List.foldl (fun a e => snapInsert a e.1) (snapInsert acc p) rest = _
          rw [hstep, ih (acc ++ [p]) ?fresh (List.nodup_cons.1 hn).2]
          · rw [List.append_assoc]
            rfl
          case fresh =>
            intro x hxr
            rw [List.mem_append, List.mem_singleton]
            rintro (h1 | h2)
            · exact hd x (List.mem_cons_of_mem p hxr) h1
            · rw [h2] at hxr
              exact (List.nodup_cons.1 hn).1 hxr

theorem buildSnapshot_keys (root : FsPath) (dst : FsTree)
    (hn : (keys dst).Nodup) : buildSnapshot root dst [] = .ok (keys dst) := by
  rw [buildSnapshot_eq]
  rw [foldl_snapInsert_fresh dst [] (fun x _ => List.not_mem_nil x) hn]
  rfl

/-! ### Snapshot tracking through the copy phase -/

theorem decide_not_mem_cons (a p : FsPath) (ks : List FsPath) :
    decide (a ∉ p :: ks) = (decide (a ≠ p) && decide (a ∉ ks)) := by
  by_cases h1 : a = p
  · subst h1; simp
  · by_cases h2 : a ∈ ks <;> simp [h1, h2]

theorem snapRemove_filter_fuse (s : List FsPath) (p : FsPath) (ks : List FsPath) :
    (snapRemove s p).filter (fun q => decide (q ∉ ks)) =
      s.filter (fun q => decide (q ∉ p :: ks)) := by
  unfold snapRemove
  rw [List.filter_filter]
  apply List.filter_congr
  intro a _
  rw [decide_not_mem_cons]
  exact (Bool.and_comm _ _).symm ▸ rfl

theorem ite_true_bool {α : Sort _} (x y : α) : (if (true : Bool) then x else y) = x := rfl

theorem ite_false_bool {α : Sort _} (x y : α) : (if (false : Bool) then x else y) = y := rfl

theorem copyPhase_snap (sr dr : FsPath) (l : FsTree) (t : FsTree) (c : Nat)
    (s : List FsPath) (o : List Op)
    (herr : (copyPhase true sr dr l t c s o).err = none) :
    (copyPhase true sr dr l t c s o).snap = s.filter (fun q => decide (q ∉ keys l)) := by
  induction l generalizing t c s o with
  | nil =>
      rw [copyPhase_nil]
      show s = _
      simp [keys]
  | cons e rest ih =>
      cases e with
      | mk p n =>
          have fuse : ∀ t' c' o',
              (copyPhase true sr dr rest t' c' (snapRemove s p) o').err = none →
              (copyPhase true sr dr rest t' c' (snapRemove s p) o').snap =
                s.filter (fun q => decide (q ∉ keys ((p, n) :: rest))) := by
            intro t' c' o' he
            rw [ih t' c' (snapRemove s p) o' he, snapRemove_filter_fuse, keys_cons]
          cases n with
          | dir m =>
              cases hex : (getNode t p).isSome with
              | true =>
                  rw [copyPhase_cons_dir_skip true sr dr p m rest t c s o hex,
                    ite_true_bool] at herr ⊢
                  exact fuse t c o herr
              | false =>
                  cases hc : create_dir_all t p c with
                  | none =>
                      rw [copyPhase_cons_dir_err true sr dr p m rest t c s o hex hc] at herr
                      exact Option.noConfusion herr
                  | some t2 =>
                      rw [copyPhase_cons_dir_create true sr dr p m rest t c s o t2 hex hc,
                        ite_true_bool] at herr ⊢
                      exact fuse t2 (c + 1) _ herr
          | file content m =>
              cases hg : (!(getNode t p).isSome || is_file_updated m t p) with
              | false =>
                  rw [copyPhase_cons_file_skip true sr dr p content m rest t c s o hg,
                    ite_true_bool] at herr ⊢
                  exact fuse t c o herr
              | true =>
                  cases hc : fsCopy t p content c with
                  | none =>
                      rw [copyPhase_cons_file_err true sr dr p content m rest t c s o hg hc]
                        at herr
                      exact Option.noConfusion herr
                  | some t2 =>
                      rw [copyPhase_cons_file_copy true sr dr p content m rest t c s o t2 hg hc,
                        ite_true_bool] at herr ⊢
                      exact fuse t2 (c + 1) _ herr

theorem copyPhase_synced (δ : Bool) (sr dr : FsPath) (l : FsTree) (t : FsTree)
    (c : Nat) (s : List FsPath) (o : List Op)
    (hnd : (keys l).Nodup) (hmt : mtimesBelow l c = true)
    (herr : (copyPhase δ sr dr l t c s o).err = none) :
    ∀ pn ∈ l, entrySynced (copyPhase δ sr dr l t c s o).dst pn.1 pn.2 := by
  induction l generalizing t c s o with
  | nil =>
      intro pn hpn
      cases hpn
  | cons e rest ih =>
      cases e with
      | mk p n =>
          rw [keys_cons, List.nodup_cons] at hnd
          rw [mtimesBelow_cons, Bool.and_eq_true] at hmt
          have hm : nodeMtime n < c := of_decide_eq_true hmt.1
          cases n with
          | dir md =>
              cases hex : (getNode t p).isSome with
              | true =>
                  rw [copyPhase_cons_dir_skip δ sr dr p md rest t c s o hex] at herr ⊢
                  intro pn hpn
                  rcases List.mem_cons.1 hpn with h1 | h2
                  · subst h1
                    show (getNode (copyPhase δ sr dr rest t c _ o).dst p).isSome = true
                    rw [copyPhase_preserve δ sr dr rest t c _ o p hnd.1 hex]
                    exact hex
                  · exact ih t c _ o hnd.2 hmt.2 herr pn h2
              | false =>
                  cases hc : create_dir_all t p c with
                  | none =>
                      rw [copyPhase_cons_dir_err δ sr dr p md rest t c s o hex hc] at herr
                      exact Option.noConfusion herr
                  | some t2 =>
                      rw [copyPhase_cons_dir_create δ sr dr p md rest t c s o t2 hex hc]
                        at herr ⊢
                      intro pn hpn
                      rcases List.mem_cons.1 hpn with h1 | h2
                      · subst h1
                        have hset := cda_sets t p c t2 hc
                        show (getNode (copyPhase δ sr dr rest t2 (c + 1) _ _).dst p).isSome = true
                        rw [copyPhase_preserve δ sr dr rest t2 (c + 1) _ _ p hnd.1 hset]
                        exact hset
                      · exact ih t2 (c + 1) _ _ hnd.2
                          (mtimesBelow_mono rest c (c + 1) hmt.2 (Nat.le_succ c)) herr pn h2
          | file content m =>
              cases hg : (!(getNode t p).isSome || is_file_updated m t p) with
              | false =>
                  rw [copyPhase_cons_file_skip δ sr dr p content m rest t c s o hg] at herr ⊢
                  rw [Bool.or_eq_false_iff] at hg
                  obtain ⟨c0, m0, heq, hle⟩ := not_updated_spec m t p hg.2
                  intro pn hpn
                  rcases List.mem_cons.1 hpn with h1 | h2
                  · subst h1
                    show ∃ c' m',
                      getNode (copyPhase δ sr dr rest t c _ o).dst p = some (.file c' m') ∧
                        m ≤ m'
                    rw [copyPhase_preserve δ sr dr rest t c _ o p hnd.1 (by rw [heq]; rfl)]
                    exact ⟨c0, m0, heq, hle⟩
                  · exact ih t c _ o hnd.2 hmt.2 herr pn h2
              | true =>
                  cases hc : fsCopy t p content c with
                  | none =>
                      rw [copyPhase_cons_file_err δ sr dr p content m rest t c s o hg hc] at herr
                      exact Option.noConfusion herr
                  | some t2 =>
                      rw [copyPhase_cons_file_copy δ sr dr p content m rest t c s o t2 hg hc]
                        at herr ⊢
                      intro pn hpn
                      rcases List.mem_cons.1 hpn with h1 | h2
                      · subst h1
                        have hset := fsCopy_sets t p content c t2 hc
                        show ∃ c' m',
                          getNode (copyPhase δ sr dr rest t2 (c + 1) _ _).dst p =
                              some (.file c' m') ∧ m ≤ m'
                        rw [copyPhase_preserve δ sr dr rest t2 (c + 1) _ _ p hnd.1
                          (by rw [hset]; rfl)]
                        refine ⟨content, c, hset, ?_⟩
                        simp only [nodeMtime] at hm
                        omega
                      · exact ih t2 (c + 1) _ _ hnd.2
                          (mtimesBelow_mono rest c (c + 1) hmt.2 (Nat.le_succ c)) herr pn h2

theorem copyPhase_noop (δ : Bool) (sr dr : FsPath) (l : FsTree) (t : FsTree)
    (c : Nat) (s : List FsPath) (o : List Op)
    (hs : ∀ pn ∈ l, entrySynced t pn.1 pn.2) :
    copyPhase δ sr dr l t c s o =
      ⟨t, c, (if δ then s.filter (fun q => decide (q ∉ keys l)) else s), o, none⟩ := by
  induction l generalizing s with
  | nil =>
      cases δ
      · rw [copyPhase_nil, ite_false_bool]
      · rw [copyPhase_nil, ite_true_bool]
        show (⟨t, c, s, o, none⟩ : PassState) = ⟨t, c, _, o, none⟩
        congr 1
        simp [keys]
  | cons e rest ih =>
      cases e with
      | mk p n =>
          have hhead := hs (p, n) (List.mem_cons_self _ _)
          have htail : ∀ pn ∈ rest, entrySynced t pn.1 pn.2 :=
            fun pn hpn => hs pn (List.mem_cons_of_mem _ hpn)
          cases n with
          | dir m =>
              have hex : (getNode t p).isSome = true := hhead
              rw [copyPhase_cons_dir_skip δ sr dr p m rest t c s o hex]
              cases δ
              · rw [ite_false_bool, ih s htail, ite_false_bool, ite_false_bool]
              · rw [ite_true_bool, ih (snapRemove s p) htail, ite_true_bool, ite_true_bool,
                  snapRemove_filter_fuse, keys_cons]
          | file content m =>
              obtain ⟨c0, m0, heq, hle⟩ := hhead
              have hg : (!(getNode t p).isSome || is_file_updated m t p) = false := by
                rw [Bool.or_eq_false_iff]
                constructor
                · rw [heq]
                  rfl
                · exact is_file_updated_file_stale m t p c0 m0 heq (by omega)
              rw [copyPhase_cons_file_skip δ sr dr p content m rest t c s o hg]
              cases δ
              · rw [ite_false_bool, ih s htail, ite_false_bool, ite_false_bool]
              · rw [ite_true_bool, ih (snapRemove s p) htail, ite_true_bool, ite_true_bool,
                  snapRemove_filter_fuse, keys_cons]

/-! ### Deletion-phase lemmas -/

theorem deletePhase_nil (t : FsTree) (o : List Op) : deletePhase [] t o = ⟨t, o, none⟩ := rfl

theorem deletePhase_cons_dir (p : FsPath) (rest : List FsPath) (t : FsTree) (o : List Op)
    (m : Nat) (h : getNode t p = some (.dir m)) :
    deletePhase (p :: rest) t o =
      deletePhase rest (t.filter (fun e => !pathLe p e.1)) (o ++ [.removeDir p]) := by
  simp only [deletePhase, h]

theorem deletePhase_cons_file (p : FsPath) (rest : List FsPath) (t : FsTree) (o : List Op)
    (c0 : List Nat) (m : Nat) (h : getNode t p = some (.file c0 m)) :
    deletePhase (p :: rest) t o =
      deletePhase rest (t.filter (fun e => decide (e.1 ≠ p))) (o ++ [.removeFile p]) := by
  simp only [deletePhase, h]

theorem deletePhase_cons_none (p : FsPath) (rest : List FsPath) (t : FsTree) (o : List Op)
    (h : getNode t p = none) :
    deletePhase (p :: rest) t o = ⟨t, o, some .fileSystemError⟩ := by
  simp only [deletePhase, h]

theorem deletePhase_preserve (dl : List FsPath) (t : FsTree) (o : List Op) (x : FsPath)
    (h : ∀ p ∈ dl, pathLe p x = false) :
    getNode (deletePhase dl t o).dst x = getNode t x := by
  induction dl generalizing t o with
  | nil => rw [deletePhase_nil]
  | cons p rest ih =>
      have hp := h p (List.mem_cons_self p rest)
      have ht : ∀ q ∈ rest, pathLe q x = false :=
        fun q hq => h q (List.mem_cons_of_mem p hq)
      cases hn : getNode t p with
      | none => rw [deletePhase_cons_none p rest t o hn]
      | some n =>
          cases n with
          | dir m =>
              rw [deletePhase_cons_dir p rest t o m hn, ih _ _ ht]
              exact getNode_filter_keep _ t x (fun n => by rw [hp]; rfl)
          | file c0 m =>
              rw [deletePhase_cons_file p rest t o c0 m hn, ih _ _ ht]
              exact getNode_filter_keep _ t x
                (fun n => decide_eq_true (pathLe_ne p x hp))

theorem deletePhase_none_stays (dl : List FsPath) (t : FsTree) (o : List Op) (x : FsPath)
    (hx : getNode t x = none) : getNode (deletePhase dl t o).dst x = none := by
  induction dl generalizing t o with
  | nil => rw [deletePhase_nil]; exact hx
  | cons p rest ih =>
      cases hn : getNode t p with
      | none => rw [deletePhase_cons_none p rest t o hn]; exact hx
      | some n =>
          cases n with
          | dir m =>
              rw [deletePhase_cons_dir p rest t o m hn]
              exact ih _ _ (getNode_filter_none _ t x hx)
          | file c0 m =>
              rw [deletePhase_cons_file p rest t o c0 m hn]
              exact ih _ _ (getNode_filter_none _ t x hx)

theorem deletePhase_dom_dec (dl : List FsPath) (t : FsTree) (o : List Op) (x : FsPath)
    (hx : (getNode (deletePhase dl t o).dst x).isSome = true) :
    (getNode t x).isSome = true := by
  cases hn : getNode t x with
  | some n => rfl
  | none =>
      rw [deletePhase_none_stays dl t o x hn] at hx
      cases hx

theorem deletePhase_removed (dl : List FsPath) (t : FsTree) (o : List Op)
    (herr : (deletePhase dl t o).err = none) (p : FsPath) (hp : p ∈ dl) :
    getNode (deletePhase dl t o).dst p = none := by
  induction dl generalizing t o with
  | nil => cases hp
  | cons a rest ih =>
      cases hn : getNode t a with
      | none =>
          rw [deletePhase_cons_none a rest t o hn] at herr
          exact Option.noConfusion herr
      | some n =>
          cases n with
          | dir m =>
              rw [deletePhase_cons_dir a rest t o m hn] at herr ⊢
              rcases List.mem_cons.1 hp with h1 | h2
              · subst h1
                exact deletePhase_none_stays _ _ _ p
                  (getNode_filter_drop _ t p (fun n => by rw [pathLe_refl]; rfl))
              · exact ih _ _ herr h2
          | file c0 m =>
              rw [deletePhase_cons_file a rest t o c0 m hn] at herr ⊢
              rcases List.mem_cons.1 hp with h1 | h2
              · subst h1
                exact deletePhase_none_stays _ _ _ p
                  (getNode_filter_drop _ t p (fun n => by simp))
              · exact ih _ _ herr h2

theorem deletePhase_err_kind (dl : List FsPath) (t : FsTree) (o : List Op) :
    (deletePhase dl t o).err = none ∨
      (deletePhase dl t o).err = some .fileSystemError := by
  induction dl generalizing t o with
  | nil => exact Or.inl rfl
  | cons a rest ih =>
      cases hn : getNode t a with
      | none =>
          rw [deletePhase_cons_none a rest t o hn]
          exact Or.inr rfl
      | some n =>
          cases n with
          | dir m =>
              rw [deletePhase_cons_dir a rest t o m hn]
              exact ih _ _
          | file c0 m =>
              rw [deletePhase_cons_file a rest t o c0 m hn]
              exact ih _ _

theorem deletePhase_nodup (dl : List FsPath) (t : FsTree) (o : List Op)
    (hk : (keys t).Nodup) : (keys (deletePhase dl t o).dst).Nodup := by
  induction dl generalizing t o with
  | nil => rw [deletePhase_nil]; exact hk
  | cons a rest ih =>
      cases hn : getNode t a with
      | none => rw [deletePhase_cons_none a rest t o hn]; exact hk
      | some n =>
          cases n with
          | dir m =>
              rw [deletePhase_cons_dir a rest t o m hn]
              exact ih _ _ (nodup_keys_filter _ t hk)
          | file c0 m =>
              rw [deletePhase_cons_file a rest t o c0 m hn]
              exact ih _ _ (nodup_keys_filter _ t hk)

theorem removesLast_append_remove (l : List Op) (r : Op) (hr : r.isRemove = true)
    (hl : removesLast l = true) : removesLast (l ++ [r]) = true := by
  induction l with
  | nil =>
      show removesLast [r] = true
      unfold removesLast
      rw [hr, if_pos rfl]
      rfl
  | cons op rest ih =>
      rw [List.cons_append]
      unfold removesLast at hl ⊢
      by_cases hop : op.isRemove = true
      · rw [hop, if_pos rfl] at hl ⊢
        rw [List.all_append, hl]
        simp [hr]
      · rw [Bool.not_eq_true] at hop
        rw [hop] at hl ⊢
        simp only [Bool.false_eq_true, if_false] at hl ⊢
        exact ih hl

theorem removesLast_of_nonremove (l : List Op) (h : ∀ op ∈ l, op.isRemove = false) :
    removesLast l = true := by
  induction l with
  | nil => rfl
  | cons op rest ih =>
      unfold removesLast
      rw [h op (List.mem_cons_self _ _)]
      simp only [Bool.false_eq_true, if_false]
      exact ih (fun op' hop' => h op' (List.mem_cons_of_mem _ hop'))

theorem deletePhase_removesLast (dl : List FsPath) (t : FsTree) (o : List Op)
    (ho : removesLast o = true) : removesLast (deletePhase dl t o).ops = true := by
  induction dl generalizing t o with
  | nil => rw [deletePhase_nil]; exact ho
  | cons a rest ih =>
      cases hn : getNode t a with
      | none => rw [deletePhase_cons_none a rest t o hn]; exact ho
      | some n =>
          cases n with
          | dir m =>
              rw [deletePhase_cons_dir a rest t o m hn]
              exact ih _ _ (removesLast_append_remove o _ rfl ho)
          | file c0 m =>
              rw [deletePhase_cons_file a rest t o c0 m hn]
              exact ih _ _ (removesLast_append_remove o _ rfl ho)

/-! ### Unfolding lemmas for one reconciliation pass -/

theorem sync_oneway_false_eq (perm : List FsPath → List FsPath) (sr dr : FsPath)
    (src dst : FsTree) (c : Nat) :
    sync_oneway perm sr dr src dst c false =
      (match (copyPhase false sr dr src dst c [] []).err with
       | some e =>
           ⟨(copyPhase false sr dr src dst c [] []).dst,
            (copyPhase false sr dr src dst c [] []).clock,
            (copyPhase false sr dr src dst c [] []).ops, some e⟩
       | none =>
           ⟨(copyPhase false sr dr src dst c [] []).dst,
            (copyPhase false sr dr src dst c [] []).clock,
            (copyPhase false sr dr src dst c [] []).ops, none⟩) := rfl

theorem sync_oneway_true_eq (perm : List FsPath → List FsPath) (sr dr : FsPath)
    (src dst : FsTree) (c : Nat) (hnd : (keys dst).Nodup) :
    sync_oneway perm sr dr src dst c true =
      (match (copyPhase true sr dr src dst c (keys dst) []).err with
       | some e =>
           ⟨(copyPhase true sr dr src dst c (keys dst) []).dst,
            (copyPhase true sr dr src dst c (keys dst) []).clock,
            (copyPhase true sr dr src dst c (keys dst) []).ops, some e⟩
       | none =>
           ⟨(deletePhase (perm (copyPhase true sr dr src dst c (keys dst) []).snap)
               (copyPhase true sr dr src dst c (keys dst) []).dst
               (copyPhase true sr dr src dst c (keys dst) []).ops).dst,
            (copyPhase true sr dr src dst c (keys dst) []).clock,
            (deletePhase (perm (copyPhase true sr dr src dst c (keys dst) []).snap)
               (copyPhase true sr dr src dst c (keys dst) []).dst
               (copyPhase true sr dr src dst c (keys dst) []).ops).ops,
            (deletePhase (perm (copyPhase true sr dr src dst c (keys dst) []).snap)
               (copyPhase true sr dr src dst c (keys dst) []).dst
               (copyPhase true sr dr src dst c (keys dst) []).ops).err⟩) := by
  unfold sync_oneway
  rw [ite_true_bool, buildSnapshot_keys dr dst hnd]
  rfl

theorem sync_oneway_false_ok (perm : List FsPath → List FsPath) (sr dr : FsPath)
    (src dst : FsTree) (c : Nat)
    (h : (copyPhase false sr dr src dst c [] []).err = none) :
    sync_oneway perm sr dr src dst c false =
      ⟨(copyPhase false sr dr src dst c [] []).dst,
       (copyPhase false sr dr src dst c [] []).clock,
       (copyPhase false sr dr src dst c [] []).ops, none⟩ := by
  rw [sync_oneway_false_eq, h]

theorem sync_oneway_false_err (perm : List FsPath → List FsPath) (sr dr : FsPath)
    (src dst : FsTree) (c : Nat) (e : SyncError)
    (h : (copyPhase false sr dr src dst c [] []).err = some e) :
    sync_oneway perm sr dr src dst c false =
      ⟨(copyPhase false sr dr src dst c [] []).dst,
       (copyPhase false sr dr src dst c [] []).clock,
       (copyPhase false sr dr src dst c [] []).ops, some e⟩ := by
  rw [sync_oneway_false_eq, h]

theorem sync_oneway_true_ok (perm : List FsPath → List FsPath) (sr dr : FsPath)
    (src dst : FsTree) (c : Nat) (hnd : (keys dst).Nodup)
    (h : (copyPhase true sr dr src dst c (keys dst) []).err = none) :
    sync_oneway perm sr dr src dst c true =
      ⟨(deletePhase (perm (copyPhase true sr dr src dst c (keys dst) []).snap)
          (copyPhase true sr dr src dst c (keys dst) []).dst
          (copyPhase true sr dr src dst c (keys dst) []).ops).dst,
       (copyPhase true sr dr src dst c (keys dst) []).clock,
       (deletePhase (perm (copyPhase true sr dr src dst c (keys dst) []).snap)
          (copyPhase true sr dr src dst c (keys dst) []).dst
          (copyPhase true sr dr src dst c (keys dst) []).ops).ops,
       (deletePhase (perm (copyPhase true sr dr src dst c (keys dst) []).snap)
          (copyPhase true sr dr src dst c (keys dst) []).dst
          (copyPhase true sr dr src dst c (keys dst) []).ops).err⟩ := by
  rw [sync_oneway_true_eq perm sr dr src dst c hnd, h]

theorem sync_oneway_true_err (perm : List FsPath → List FsPath) (sr dr : FsPath)
    (src dst : FsTree) (c : Nat) (e : SyncError) (hnd : (keys dst).Nodup)
    (h : (copyPhase true sr dr src dst c (keys dst) []).err = some e) :
    sync_oneway perm sr dr src dst c true =
      ⟨(copyPhase true sr dr src dst c (keys dst) []).dst,
       (copyPhase true sr dr src dst c (keys dst) []).clock,
       (copyPhase true sr dr src dst c (keys dst) []).ops, some e⟩ := by
  rw [sync_oneway_true_eq perm sr dr src dst c hnd, h]

theorem sync_oneway_true_eq_gen (perm : List FsPath → List FsPath) (sr dr : FsPath)
    (src dst : FsTree) (c : Nat) :
    sync_oneway perm sr dr src dst c true =
      (match (copyPhase true sr dr src dst c
          (List.foldl (fun a e => snapInsert a e.1) [] dst) []).err with
       | some e =>
           ⟨(copyPhase true sr dr src dst c
               (List.foldl (fun a e => snapInsert a e.1) [] dst) []).dst,
            (copyPhase true sr dr src dst c
               (List.foldl (fun a e => snapInsert a e.1) [] dst) []).clock,
            (copyPhase true sr dr src dst c
               (List.foldl (fun a e => snapInsert a e.1) [] dst) []).ops, some e⟩
       | none =>
           ⟨(deletePhase (perm (copyPhase true sr dr src dst c
                 (List.foldl (fun a e => snapInsert a e.1) [] dst) []).snap)
               (copyPhase true sr dr src dst c
                 (List.foldl (fun a e => snapInsert a e.1) [] dst) []).dst
               (copyPhase true sr dr src dst c
                 (List.foldl (fun a e => snapInsert a e.1) [] dst) []).ops).dst,
            (copyPhase true sr dr src dst c
               (List.foldl (fun a e => snapInsert a e.1) [] dst) []).clock,
            (deletePhase (perm (copyPhase true sr dr src dst c
                 (List.foldl (fun a e => snapInsert a e.1) [] dst) []).snap)
               (copyPhase true sr dr src dst c
                 (List.foldl (fun a e => snapInsert a e.1) [] dst) []).dst
               (copyPhase true sr dr src dst c
                 (List.foldl (fun a e => snapInsert a e.1) [] dst) []).ops).ops,
            (deletePhase (perm (copyPhase true sr dr src dst c
                 (List.foldl (fun a e => snapInsert a e.1) [] dst) []).snap)
               (copyPhase true sr dr src dst c
                 (List.foldl (fun a e => snapInsert a e.1) [] dst) []).dst
               (copyPhase true sr dr src dst c
                 (List.foldl (fun a e => snapInsert a e.1) [] dst) []).ops).err⟩) := by
  unfold sync_oneway
  rw [ite_true_bool, buildSnapshot_eq]
  rfl

theorem entrySynced_congr (t t' : FsTree) (p : FsPath) (n : FsNode)
    (h : getNode t' p = getNode t p) (hs : entrySynced t p n) : entrySynced t' p n := by
  cases n with
  | dir m =>
      show (getNode t' p).isSome = true
      rw [h]
      exact hs
  | file c m =>
      obtain ⟨c0, m0, heq, hle⟩ := hs
      exact ⟨c0, m0, by rw [h]; exact heq, hle⟩

theorem sync_bothways_eq (perm : List FsPath → List FsPath) (sr dr : FsPath)
    (src dst : FsTree) (c : Nat) (δ : Bool) :
    sync_bothways perm sr dr src dst c δ =
      (match (sync_oneway perm sr dr src dst c δ).err with
       | some e =>
           ⟨src, (sync_oneway perm sr dr src dst c δ).dst,
            (sync_oneway perm sr dr src dst c δ).clock,
            (sync_oneway perm sr dr src dst c δ).ops, some e⟩
       | none =>
           ⟨(sync_oneway perm dr sr (sync_oneway perm sr dr src dst c δ).dst src
               (sync_oneway perm sr dr src dst c δ).clock δ).dst,
            (sync_oneway perm sr dr src dst c δ).dst,
            (sync_oneway perm dr sr (sync_oneway perm sr dr src dst c δ).dst src
               (sync_oneway perm sr dr src dst c δ).clock δ).clock,
            (sync_oneway perm sr dr src dst c δ).ops ++
              (sync_oneway perm dr sr (sync_oneway perm sr dr src dst c δ).dst src
                 (sync_oneway perm sr dr src dst c δ).clock δ).ops,
            (sync_oneway perm dr sr (sync_oneway perm sr dr src dst c δ).dst src
               (sync_oneway perm sr dr src dst c δ).clock δ).err⟩) := rfl

/-! ### Claim theorems -/

/-- C1 (code bug evidence): with the destination file present, timestamps
equal and the contents different (source byte 88, destination byte 89), the
staleness check returns `false` — line 137 hashes the destination twice, so
the digests always agree — and a full delete-enabled pass performs no
operation and leaves the stale destination content in place, contradicting
the claim that the source and destination digests are compared and the file
re-copied. -/
theorem C1_content_change_not_detected :
    is_file_updated 5 [([], FsNode.dir 0), (["a"], FsNode.file [89] 5)] ["a"] = false ∧
    (sync_oneway id ["s"] ["d"]
        [([], FsNode.dir 0), (["a"], FsNode.file [88] 5)]
        [([], FsNode.dir 0), (["a"], FsNode.file [89] 5)] 100 true).err = none ∧
    (sync_oneway id ["s"] ["d"]
        [([], FsNode.dir 0), (["a"], FsNode.file [88] 5)]
        [([], FsNode.dir 0), (["a"], FsNode.file [89] 5)] 100 true).ops = [] ∧
    fileContentAt (sync_oneway id ["s"] ["d"]
        [([], FsNode.dir 0), (["a"], FsNode.file [88] 5)]
        [([], FsNode.dir 0), (["a"], FsNode.file [89] 5)] 100 true).dst ["a"] =
      some [89] := by
  decide

/-- C3 (code bug evidence): destination holds an extraneous directory `d1`
with a child `d1/f` and a later extraneous file `g`, source is empty.  In a
delete-enabled pass whose snapshot iteration visits `d1` before `d1/f` (an
admissible `HashSet` order — here the snapshot insertion order), the pass
removes the `d1` subtree, then `remove_file` on the already-removed `d1/f`
fails with NotFound, the pass aborts with a filesystem error, and the
unmatched entry `g` is never removed — contradicting the claim that every
unmatched destination path is removed at the end of the pass. -/
theorem C3_unmatched_path_survives :
    (sync_oneway id ["s"] ["d"] [([], FsNode.dir 0)]
        [([], FsNode.dir 0), (["d1"], FsNode.dir 0), (["d1", "f"], FsNode.file [1] 0),
         (["g"], FsNode.file [2] 0)] 100 true).err = some SyncError.fileSystemError ∧
    (sync_oneway id ["s"] ["d"] [([], FsNode.dir 0)]
        [([], FsNode.dir 0), (["d1"], FsNode.dir 0), (["d1", "f"], FsNode.file [1] 0),
         (["g"], FsNode.file [2] 0)] 100 true).ops = [Op.removeDir ["d1"]] ∧
    getNode (sync_oneway id ["s"] ["d"] [([], FsNode.dir 0)]
        [([], FsNode.dir 0), (["d1"], FsNode.dir 0), (["d1", "f"], FsNode.file [1] 0),
         (["g"], FsNode.file [2] 0)] 100 true).dst ["g"] = some (FsNode.file [2] 0) := by
  decide

/-- C7: the staleness check returns true when nothing exists at the
destination path, returns true when the source modification time is strictly
greater than the destination's, and an equal timestamp on a readable
destination file does not by itself trigger a copy (the check returns
false). -/
theorem C7_staleness_policy (m : Nat) (t : FsTree) (p : FsPath) :
    (getNode t p = none → is_file_updated m t p = true) ∧
    (∀ n, getNode t p = some n → m > nodeMtime n → is_file_updated m t p = true) ∧
    (∀ c0, getNode t p = some (FsNode.file c0 m) → is_file_updated m t p = false) := by
  refine ⟨fun h => is_file_updated_no_dest m t p h,
    fun n h hm => is_file_updated_newer m t p n h hm,
    fun c0 h => is_file_updated_file_stale m t p c0 m h (by omega)⟩

/-- Witness for C7 at concrete inputs. -/
theorem C7_witness :
    is_file_updated 9 [] ["x"] = true ∧
    is_file_updated 9 [(["f"], FsNode.file [1] 4)] ["f"] = true ∧
    is_file_updated 4 [(["f"], FsNode.file [1] 4)] ["f"] = false :=
  ⟨(C7_staleness_policy 9 [] ["x"]).1 rfl,
   (C7_staleness_policy 9 [(["f"], FsNode.file [1] 4)] ["f"]).2.1
     (FsNode.file [1] 4) rfl (by decide),
   (C7_staleness_policy 4 [(["f"], FsNode.file [1] 4)] ["f"]).2.2 [1] rfl⟩

/-- C8: when the destination entry exists, the source timestamp is not
strictly newer, and computing the content digest fails with an I/O error
(`calculate_hash` returns an error), the staleness check returns true — the
file is treated as needing update instead of the error aborting the pass
(`is_file_updated` is total and returns a plain boolean). -/
theorem C8_hash_error_fails_open (m : Nat) (t : FsTree) (p : FsPath) (n : FsNode)
    (hdest : getNode t p = some n) (hts : ¬ m > nodeMtime n)
    (hfail : calculate_hash t p = none) : is_file_updated m t p = true :=
  is_file_updated_hash_fail m t p n hdest hts hfail

/-- Witness for C8: a directory at the destination path makes hashing fail. -/
theorem C8_witness : is_file_updated 3 [(["d"], FsNode.dir 5)] ["d"] = true :=
  C8_hash_error_fails_open 3 [(["d"], FsNode.dir 5)] ["d"] (FsNode.dir 5) rfl
    (by decide) rfl

/-- C9: within one one-way pass, for every input and every snapshot iteration
order, the operation log never has a removal followed by a directory creation
or file copy: all creations and copies of the source walk precede every
deletion of an extraneous destination entry. -/
theorem C9_copies_before_deletes (perm : List FsPath → List FsPath) (sr dr : FsPath)
    (src dst : FsTree) (c : Nat) (δ : Bool) :
    removesLast (sync_oneway perm sr dr src dst c δ).ops = true := by
  have hnr : ∀ (d : Bool) (s : List FsPath),
      ∀ op ∈ (copyPhase d sr dr src dst c s []).ops, op.isRemove = false :=
    fun d s => copyPhase_ops_nonremove d sr dr src dst c s []
      (fun op h => absurd h (List.not_mem_nil op))
  cases δ with
  | false =>
      cases hce : (copyPhase false sr dr src dst c [] []).err with
      | none =>
          rw [sync_oneway_false_ok perm sr dr src dst c hce]
          exact removesLast_of_nonremove _ (hnr false [])
      | some e =>
          rw [sync_oneway_false_err perm sr dr src dst c e hce]
          exact removesLast_of_nonremove _ (hnr false [])
  | true =>
      rw [sync_oneway_true_eq_gen]
      cases hce : (copyPhase true sr dr src dst c
          (List.foldl (fun a e => snapInsert a e.1) [] dst) []).err with
      | some e =>
          exact removesLast_of_nonremove _ (hnr true _)
      | none =>
          exact deletePhase_removesLast _ _ _ (removesLast_of_nonremove _ (hnr true _))

/-- C10: the re-relativization `dest_path.strip_prefix(destination)` (and the
strip calls of both walks) can never fail, because each stripped path is the
corresponding root joined with a relative suffix; consequently a one-way pass
never produces a `PathError`, for every input tree, root pair, clock, delete
flag and snapshot iteration order. -/
theorem C10_no_path_error (perm : List FsPath → List FsPath) (sr dr : FsPath)
    (src dst : FsTree) (c : Nat) (δ : Bool) :
    notPathError (sync_oneway perm sr dr src dst c δ).err = true := by
  cases δ with
  | false =>
      cases hce : (copyPhase false sr dr src dst c [] []).err with
      | none =>
          rw [sync_oneway_false_ok perm sr dr src dst c hce]
          rfl
      | some e =>
          rw [sync_oneway_false_err perm sr dr src dst c e hce]
          rcases copyPhase_err_kind false sr dr src dst c [] [] with h | h
          · rw [hce] at h; cases h
          · rw [hce] at h
            injection h with h
            rw [h]
            rfl
  | true =>
      rw [sync_oneway_true_eq_gen]
      cases hce : (copyPhase true sr dr src dst c
          (List.foldl (fun a e => snapInsert a e.1) [] dst) []).err with
      | some e =>
          rcases copyPhase_err_kind true sr dr src dst c
              (List.foldl (fun a e => snapInsert a e.1) [] dst) [] with h | h
          · rw [hce] at h; cases h
          · rw [hce] at h
            injection h with h
            show notPathError (some e) = true
            rw [h]
            rfl
      | none =>
          rcases deletePhase_err_kind (perm (copyPhase true sr dr src dst c
              (List.foldl (fun a e => snapInsert a e.1) [] dst) []).snap)
              (copyPhase true sr dr src dst c
                (List.foldl (fun a e => snapInsert a e.1) [] dst) []).dst
              (copyPhase true sr dr src dst c
                (List.foldl (fun a e => snapInsert a e.1) [] dst) []).ops with h | h
          · show notPathError (deletePhase _ _ _).err = true
            rw [h]
            rfl
          · show notPathError (deletePhase _ _ _).err = true
            rw [h]
            rfl

/-- C4: a bidirectional cycle is exactly the source→destination pass
followed, on success, by the destination→source pass over the updated
destination tree and advanced clock, in that fixed order; if the first pass
returns an error, the second pass is not started (the resulting trees and
operation log are exactly those left by the first pass) and that error is
surfaced to the caller. -/
theorem C4_two_sequential_passes (perm : List FsPath → List FsPath) (sr dr : FsPath)
    (src dst : FsTree) (c : Nat) (δ : Bool) :
    ((sync_oneway perm sr dr src dst c δ).err = none →
       sync_bothways perm sr dr src dst c δ =
         ⟨(sync_oneway perm dr sr (sync_oneway perm sr dr src dst c δ).dst src
             (sync_oneway perm sr dr src dst c δ).clock δ).dst,
          (sync_oneway perm sr dr src dst c δ).dst,
          (sync_oneway perm dr sr (sync_oneway perm sr dr src dst c δ).dst src
             (sync_oneway perm sr dr src dst c δ).clock δ).clock,
          (sync_oneway perm sr dr src dst c δ).ops ++
            (sync_oneway perm dr sr (sync_oneway perm sr dr src dst c δ).dst src
               (sync_oneway perm sr dr src dst c δ).clock δ).ops,
          (sync_oneway perm dr sr (sync_oneway perm sr dr src dst c δ).dst src
             (sync_oneway perm sr dr src dst c δ).clock δ).err⟩) ∧
    (∀ e, (sync_oneway perm sr dr src dst c δ).err = some e →
       sync_bothways perm sr dr src dst c δ =
         ⟨src, (sync_oneway perm sr dr src dst c δ).dst,
          (sync_oneway perm sr dr src dst c δ).clock,
          (sync_oneway perm sr dr src dst c δ).ops, some e⟩) := by
  constructor
  · intro h
    rw [sync_bothways_eq, h]
  · intro e h
    rw [sync_bothways_eq, h]

/-- Witness for C4: the first pass fails (source file `f` collides with a
destination directory `f`), the cycle surfaces that error and the second pass
never runs. -/
theorem C4_witness :
    sync_bothways id ["s"] ["d"] [([], FsNode.dir 0), (["f"], FsNode.file [1] 5)]
        [([], FsNode.dir 0), (["f"], FsNode.dir 0)] 100 true =
      ⟨[([], FsNode.dir 0), (["f"], FsNode.file [1] 5)],
       (sync_oneway id ["s"] ["d"] [([], FsNode.dir 0), (["f"], FsNode.file [1] 5)]
           [([], FsNode.dir 0), (["f"], FsNode.dir 0)] 100 true).dst,
       (sync_oneway id ["s"] ["d"] [([], FsNode.dir 0), (["f"], FsNode.file [1] 5)]
           [([], FsNode.dir 0), (["f"], FsNode.dir 0)] 100 true).clock,
       (sync_oneway id ["s"] ["d"] [([], FsNode.dir 0), (["f"], FsNode.file [1] 5)]
           [([], FsNode.dir 0), (["f"], FsNode.dir 0)] 100 true).ops,
       some SyncError.fileSystemError⟩ :=
  (C4_two_sequential_passes id ["s"] ["d"]
      [([], FsNode.dir 0), (["f"], FsNode.file [1] 5)]
      [([], FsNode.dir 0), (["f"], FsNode.dir 0)] 100 true).2
    SyncError.fileSystemError (by decide)

theorem runningAfter_false_iff (events : List UserEvent) :
    runningAfter events = false ↔
      (UserEvent.interrupt ∈ events ∨ UserEvent.inputLine "q" ∈ events) := by
  induction events with
  | nil => simp [runningAfter]
  | cons e rest ih =>
      unfold runningAfter at ih ⊢
      rw [List.all_cons]
      cases e with
      | interrupt => simp
      | inputLine s =>
          by_cases hs : s = "q"
          · subst hs
            simp
          · rw [show (match UserEvent.inputLine s with
                | UserEvent.interrupt => false
                | UserEvent.inputLine s => decide (s ≠ "q")) = decide (s ≠ "q") from rfl]
            rw [decide_eq_true (hs : s ≠ "q"), Bool.true_and, ih]
            simp only [List.mem_cons]
            constructor
            · rintro (h1 | h2)
              · exact Or.inl (Or.inr h1)
              · exact Or.inr (Or.inr h2)
            · rintro ((h | h) | (h | h))
              · cases h
              · exact Or.inl h
              · injection h with h
                exact absurd h.symm hs
              · exact Or.inr h

/-- C6 counterexample: with the unrecognized mode string "both" and no user
event, the spawned sync task runs zero cycles (the claim's "no cycle runs"
part holds) but the process has not stopped — the shared flag is still up and
the main loop keeps running — refuting the claim that a bad mode string stops
the process. -/
theorem C6_counterexample :
    parseMode "both" = none ∧
    syncTaskCycles "both" [true, true, true] = 0 ∧
    processStopped [] = false := by
  decide

/-- C6 amended: an unrecognized mode string makes the spawned task return
before any cycle, for every flag history, so no synchronization cycle ever
runs; but the process does not terminate because of it — the process stops
exactly when an interrupt or the input line "q" arrives, the mode dispatch
never writes the shared flag. -/
theorem C6_amended (m : String) (flags : List Bool) (events : List UserEvent)
    (h : parseMode m = none) :
    syncTaskCycles m flags = 0 ∧
    (processStopped events = true ↔
      (UserEvent.interrupt ∈ events ∨ UserEvent.inputLine "q" ∈ events)) := by
  constructor
  · cases flags with
    | nil => rfl
    | cons f rest =>
        unfold syncTaskCycles
        rw [h]
        cases f <;> rfl
  · unfold processStopped
    rw [Bool.not_eq_true']
    exact runningAfter_false_iff events

/-- Witness for C6 amended at a concrete bad mode, flag history and event
list. -/
theorem C6_witness :
    syncTaskCycles "both" [true, true] = 0 ∧
    (processStopped [UserEvent.interrupt] = true ↔
      (UserEvent.interrupt ∈ [UserEvent.interrupt] ∨
        UserEvent.inputLine "q" ∈ [UserEvent.interrupt])) :=
  C6_amended "both" [true, true] [UserEvent.interrupt] (by decide)

/-- C2 counterexample: with source `a.txt` = byte 88 ("X") strictly newer
than destination `a.txt` = byte 89 ("Y"), a bidirectional delete-enabled
cycle ends with both trees holding "X", not "Y": the first pass copies the
source over the destination (timestamp strictly newer), and the second pass
copies that fresh file back — refuting the claim that both trees contain "Y"
after every bidirectional cycle on these contents. -/
theorem C2_counterexample :
    (sync_bothways id ["s"] ["d"]
        [([], FsNode.dir 0), (["a.txt"], FsNode.file [88] 10)]
        [([], FsNode.dir 0), (["a.txt"], FsNode.file [89] 5)] 100 true).err = none ∧
    fileContentAt (sync_bothways id ["s"] ["d"]
        [([], FsNode.dir 0), (["a.txt"], FsNode.file [88] 10)]
        [([], FsNode.dir 0), (["a.txt"], FsNode.file [89] 5)] 100 true).src ["a.txt"] =
      some [88] ∧
    fileContentAt (sync_bothways id ["s"] ["d"]
        [([], FsNode.dir 0), (["a.txt"], FsNode.file [88] 10)]
        [([], FsNode.dir 0), (["a.txt"], FsNode.file [89] 5)] 100 true).dst ["a.txt"] =
      some [88] ∧
    ¬ (fileContentAt (sync_bothways id ["s"] ["d"]
          [([], FsNode.dir 0), (["a.txt"], FsNode.file [88] 10)]
          [([], FsNode.dir 0), (["a.txt"], FsNode.file [89] 5)] 100 true).src ["a.txt"] =
        some [89] ∧
       fileContentAt (sync_bothways id ["s"] ["d"]
          [([], FsNode.dir 0), (["a.txt"], FsNode.file [88] 10)]
          [([], FsNode.dir 0), (["a.txt"], FsNode.file [89] 5)] 100 true).dst ["a.txt"] =
        some [89]) := by
  decide

/-- C2 amended: given source `a.txt` (content `x`) and destination `a.txt`
(content `y`), when the destination's modification time is strictly newer
than the source's, a bidirectional delete-enabled
cycle leaves both trees containing `y` at `a.txt`: the first pass leaves the
destination untouched (the source is not newer and the digest fallback of
line 137 compares the destination with itself), and the second pass copies
the destination file back over the source. -/
theorem C2_amended (perm : List FsPath → List FsPath) (sr dr : FsPath)
    (x y : List Nat) (ms md c : Nat) (hπ : perm [] = [])
    (hms : ms < md) :
    fileContentAt (sync_bothways perm sr dr
        [([], FsNode.dir 0), (["a.txt"], FsNode.file x ms)]
        [([], FsNode.dir 0), (["a.txt"], FsNode.file y md)] c true).src ["a.txt"] =
      some y ∧
    fileContentAt (sync_bothways perm sr dr
        [([], FsNode.dir 0), (["a.txt"], FsNode.file x ms)]
        [([], FsNode.dir 0), (["a.txt"], FsNode.file y md)] c true).dst ["a.txt"] =
      some y := by
  have hgd1 : (!(getNode [([], FsNode.dir 0), (["a.txt"], FsNode.file y md)]
        ["a.txt"]).isSome ||
      is_file_updated ms [([], FsNode.dir 0), (["a.txt"], FsNode.file y md)]
        ["a.txt"]) = false := by
    rw [Bool.or_eq_false_iff]
    exact ⟨rfl, is_file_updated_file_stale ms _ ["a.txt"] y md rfl (by omega)⟩
  have hps1 : copyPhase true sr dr
      [([], FsNode.dir 0), (["a.txt"], FsNode.file x ms)]
      [([], FsNode.dir 0), (["a.txt"], FsNode.file y md)] c
      (keys [([], FsNode.dir 0), (["a.txt"], FsNode.file y md)]) [] =
      ⟨[([], FsNode.dir 0), (["a.txt"], FsNode.file y md)], c, [], [], none⟩ := by
    rw [copyPhase_cons_dir_skip true sr dr [] 0 [(["a.txt"], FsNode.file x ms)]
        [([], FsNode.dir 0), (["a.txt"], FsNode.file y md)] c
        (keys [([], FsNode.dir 0), (["a.txt"], FsNode.file y md)]) [] rfl, ite_true_bool,
      copyPhase_cons_file_skip true sr dr ["a.txt"] x ms []
        [([], FsNode.dir 0), (["a.txt"], FsNode.file y md)] c
        (snapRemove (keys [([], FsNode.dir 0), (["a.txt"], FsNode.file y md)]) []) [] hgd1,
      ite_true_bool, copyPhase_nil]
    rfl
  have hr1 : sync_oneway perm sr dr
      [([], FsNode.dir 0), (["a.txt"], FsNode.file x ms)]
      [([], FsNode.dir 0), (["a.txt"], FsNode.file y md)] c true =
      ⟨[([], FsNode.dir 0), (["a.txt"], FsNode.file y md)], c, [], none⟩ := by
    rw [sync_oneway_true_ok perm sr dr
        [([], FsNode.dir 0), (["a.txt"], FsNode.file x ms)]
        [([], FsNode.dir 0), (["a.txt"], FsNode.file y md)] c
        (by show ([[], ["a.txt"]] : List FsPath).Nodup; decide) (by rw [hps1]),
      hps1]
    dsimp only
    rw [hπ]
    rfl
  have hup2 : is_file_updated md [([], FsNode.dir 0), (["a.txt"], FsNode.file x ms)]
      ["a.txt"] = true :=
    is_file_updated_newer md _ ["a.txt"] (FsNode.file x ms) rfl
      (by simp only [nodeMtime]; omega)
  have hgd2 : (!(getNode [([], FsNode.dir 0), (["a.txt"], FsNode.file x ms)]
        ["a.txt"]).isSome ||
      is_file_updated md [([], FsNode.dir 0), (["a.txt"], FsNode.file x ms)]
        ["a.txt"]) = true := by
    rw [hup2, Bool.or_true]
  have hcp2 : fsCopy [([], FsNode.dir 0), (["a.txt"], FsNode.file x ms)] ["a.txt"] y c =
      some [([], FsNode.dir 0), (["a.txt"], FsNode.file y c)] := rfl
  have hps2 : copyPhase true dr sr
      [([], FsNode.dir 0), (["a.txt"], FsNode.file y md)]
      [([], FsNode.dir 0), (["a.txt"], FsNode.file x ms)] c
      (keys [([], FsNode.dir 0), (["a.txt"], FsNode.file x ms)]) [] =
      ⟨[([], FsNode.dir 0), (["a.txt"], FsNode.file y c)], c + 1,
       [], [Op.copyFile ["a.txt"]], none⟩ := by
    rw [copyPhase_cons_dir_skip true dr sr [] 0 [(["a.txt"], FsNode.file y md)]
        [([], FsNode.dir 0), (["a.txt"], FsNode.file x ms)] c
        (keys [([], FsNode.dir 0), (["a.txt"], FsNode.file x ms)]) [] rfl, ite_true_bool,
      copyPhase_cons_file_copy true dr sr ["a.txt"] y md []
        [([], FsNode.dir 0), (["a.txt"], FsNode.file x ms)] c
        (snapRemove (keys [([], FsNode.dir 0), (["a.txt"], FsNode.file x ms)]) []) []
        [([], FsNode.dir 0), (["a.txt"], FsNode.file y c)] hgd2 hcp2,
      ite_true_bool, copyPhase_nil]
    rfl
  have hr2 : sync_oneway perm dr sr
      [([], FsNode.dir 0), (["a.txt"], FsNode.file y md)]
      [([], FsNode.dir 0), (["a.txt"], FsNode.file x ms)] c true =
      ⟨[([], FsNode.dir 0), (["a.txt"], FsNode.file y c)], c + 1,
       [Op.copyFile ["a.txt"]], none⟩ := by
    rw [sync_oneway_true_ok perm dr sr
        [([], FsNode.dir 0), (["a.txt"], FsNode.file y md)]
        [([], FsNode.dir 0), (["a.txt"], FsNode.file x ms)] c
        (by show ([[], ["a.txt"]] : List FsPath).Nodup; decide) (by rw [hps2]),
      hps2]
    dsimp only
    rw [hπ]
    rfl
  rw [sync_bothways_eq, hr1]
  dsimp only
  rw [hr2]
  exact ⟨rfl, rfl⟩

/-- Witness for C2 amended at concrete contents and timestamps. -/
theorem C2_witness :
    fileContentAt (sync_bothways id ["s"] ["d"]
        [([], FsNode.dir 0), (["a.txt"], FsNode.file [88] 5)]
        [([], FsNode.dir 0), (["a.txt"], FsNode.file [89] 10)] 100 true).src ["a.txt"] =
      some [89] ∧
    fileContentAt (sync_bothways id ["s"] ["d"]
        [([], FsNode.dir 0), (["a.txt"], FsNode.file [88] 5)]
        [([], FsNode.dir 0), (["a.txt"], FsNode.file [89] 10)] 100 true).dst ["a.txt"] =
      some [89] :=
  C2_amended id ["s"] ["d"] [88] [89] 5 10 100 rfl (by omega)

theorem run_noop_of_synced (perm : List FsPath → List FsPath) (sr dr : FsPath)
    (src : FsTree) (t2 : FsTree) (c2 : Nat) (δ : Bool)
    (hπnil : perm [] = [])
    (hsynced : ∀ pn ∈ src, entrySynced t2 pn.1 pn.2)
    (hnd2 : (keys t2).Nodup)
    (hsub : δ = true → ∀ x ∈ keys t2, x ∈ keys src) :
    (sync_oneway perm sr dr src t2 c2 δ).ops = [] := by
  cases δ with
  | false =>
      have hnoop := copyPhase_noop false sr dr src t2 c2 [] [] hsynced
      rw [ite_false_bool] at hnoop
      rw [sync_oneway_false_ok perm sr dr src t2 c2 (by rw [hnoop]), hnoop]
  | true =>
      have hnoop := copyPhase_noop true sr dr src t2 c2 (keys t2) [] hsynced
      rw [ite_true_bool] at hnoop
      have hempty : (keys t2).filter (fun q => decide (q ∉ keys src)) = [] := by
        rw [List.filter_eq_nil_iff]
        intro a ha hdec
        exact (of_decide_eq_true hdec) (hsub rfl a ha)
      rw [hempty] at hnoop
      rw [sync_oneway_true_ok perm sr dr src t2 c2 hnd2 (by rw [hnoop]), hnoop]
      dsimp only
      rw [hπnil]
      rfl

/-- C5: running a one-way pass twice in succession with no intervening change
to the source is idempotent: for every pair of well-formed trees, any delete
flag, any snapshot iteration order, and a clock past every source
modification time, if the first pass succeeds then the second pass performs
zero directory-creation, file-copy, or delete operations (its operation log
is empty). -/
theorem C5_second_run_noop (perm : List FsPath → List FsPath) (sr dr : FsPath)
    (src dst : FsTree) (c : Nat) (δ : Bool)
    (hperm : ∀ l, List.Perm (perm l) l)
    (hsrc : wellFormed src = true) (hdst : wellFormed dst = true)
    (hmt : mtimesBelow src c = true)
    (h1 : (sync_oneway perm sr dr src dst c δ).err = none) :
    (sync_oneway perm sr dr src (sync_oneway perm sr dr src dst c δ).dst
        (sync_oneway perm sr dr src dst c δ).clock δ).ops = [] := by
  have hndsrc : (keys src).Nodup := wellFormed_nodup src hsrc
  have hnddst : (keys dst).Nodup := wellFormed_nodup dst hdst
  have hπnil : perm [] = [] := (hperm []).eq_nil
  have hmem_keys : ∀ pn : FsPath × FsNode, pn ∈ src → pn.1 ∈ keys src :=
    fun pn hpn => List.mem_map.2 ⟨pn, hpn, rfl⟩
  cases δ with
  | false =>
      cases hce : (copyPhase false sr dr src dst c [] []).err with
      | some e =>
          rw [sync_oneway_false_err perm sr dr src dst c e hce] at h1
          exact Option.noConfusion h1
      | none =>
          rw [sync_oneway_false_ok perm sr dr src dst c hce]
          dsimp only
          exact run_noop_of_synced perm sr dr src _ _ false hπnil
            (copyPhase_synced false sr dr src dst c [] [] hndsrc hmt hce)
            (copyPhase_nodup false sr dr src dst c [] [] hnddst)
            (fun h => Bool.noConfusion h)
  | true =>
      cases hce : (copyPhase true sr dr src dst c (keys dst) []).err with
      | some e =>
          rw [sync_oneway_true_err perm sr dr src dst c e hnddst hce] at h1
          exact Option.noConfusion h1
      | none =>
          rw [sync_oneway_true_ok perm sr dr src dst c hnddst hce] at h1 ⊢
          dsimp only at h1 ⊢
          have hsnap := copyPhase_snap sr dr src dst c (keys dst) [] hce
          have hsynced1 := copyPhase_synced true sr dr src dst c (keys dst) [] hndsrc hmt hce
          have hnd1 := copyPhase_nodup true sr dr src dst c (keys dst) [] hnddst
          have hsnapmem : ∀ q ∈ perm (copyPhase true sr dr src dst c (keys dst) []).snap,
              q ∉ keys src := by
            intro q hq
            have hq2 : q ∈ (copyPhase true sr dr src dst c (keys dst) []).snap :=
              (hperm _).mem_iff.1 hq
            rw [hsnap] at hq2
            exact of_decide_eq_true (List.mem_filter.1 hq2).2
          have hdl : ∀ q ∈ perm (copyPhase true sr dr src dst c (keys dst) []).snap,
              ∀ p ∈ keys src, pathLe q p = false := by
            intro q hq p hp
            cases hqp : pathLe q p with
            | false => rfl
            | true =>
                exact absurd (wellFormed_closed src hsrc p q hp hqp) (hsnapmem q hq)
          have hsynced2 : ∀ pn ∈ src,
              entrySynced (deletePhase
                (perm (copyPhase true sr dr src dst c (keys dst) []).snap)
                (copyPhase true sr dr src dst c (keys dst) []).dst
                (copyPhase true sr dr src dst c (keys dst) []).ops).dst pn.1 pn.2 := by
            intro pn hpn
            refine entrySynced_congr _ _ _ _ ?_ (hsynced1 pn hpn)
            exact deletePhase_preserve _ _ _ pn.1
              (fun q hq => hdl q hq pn.1 (hmem_keys pn hpn))
          have hnd2 := deletePhase_nodup
            (perm (copyPhase true sr dr src dst c (keys dst) []).snap)
            (copyPhase true sr dr src dst c (keys dst) []).dst
            (copyPhase true sr dr src dst c (keys dst) []).ops hnd1
          have hsub : ∀ x ∈ keys (deletePhase
              (perm (copyPhase true sr dr src dst c (keys dst) []).snap)
              (copyPhase true sr dr src dst c (keys dst) []).dst
              (copyPhase true sr dr src dst c (keys dst) []).ops).dst,
              x ∈ keys src := by
            intro x hx
            have hxs := (getNode_isSome_iff _ x).2 hx
            have hx1 := deletePhase_dom_dec
              (perm (copyPhase true sr dr src dst c (keys dst) []).snap)
              (copyPhase true sr dr src dst c (keys dst) []).dst
              (copyPhase true sr dr src dst c (keys dst) []).ops x hxs
            rcases copyPhase_new true sr dr src dst c (keys dst) [] x hx1 with
              h0 | ⟨p, hp, hle⟩
            · by_cases hxsrc : x ∈ keys src
              · exact hxsrc
              · have hxsnap : x ∈ (copyPhase true sr dr src dst c (keys dst) []).snap := by
                  rw [hsnap]
                  exact List.mem_filter.2
                    ⟨(getNode_isSome_iff dst x).1 h0, decide_eq_true hxsrc⟩
                have hxperm := (hperm _).mem_iff.2 hxsnap
                have hrm := deletePhase_removed
                  (perm (copyPhase true sr dr src dst c (keys dst) []).snap)
                  (copyPhase true sr dr src dst c (keys dst) []).dst
                  (copyPhase true sr dr src dst c (keys dst) []).ops h1 x hxperm
                rw [hrm] at hxs
                cases hxs
            · exact wellFormed_closed src hsrc p x hp hle
          exact run_noop_of_synced perm sr dr src _ _ true hπnil hsynced2 hnd2
            (fun _ => hsub)

/-- Witness for C5 at concrete trees: the first delete-enabled pass copies
`a` into the empty destination and succeeds; the second pass performs zero
operations. -/
theorem C5_witness :
    wellFormed [([], FsNode.dir 0), (["a"], FsNode.file [1] 1)] = true ∧
    (sync_oneway id ["s"] ["d"] [([], FsNode.dir 0), (["a"], FsNode.file [1] 1)]
        [([], FsNode.dir 0)] 10 true).err = none ∧
    (sync_oneway id ["s"] ["d"] [([], FsNode.dir 0), (["a"], FsNode.file [1] 1)]
        (sync_oneway id ["s"] ["d"] [([], FsNode.dir 0), (["a"], FsNode.file [1] 1)]
          [([], FsNode.dir 0)] 10 true).dst
        (sync_oneway id ["s"] ["d"] [([], FsNode.dir 0), (["a"], FsNode.file [1] 1)]
          [([], FsNode.dir 0)] 10 true).clock true).ops = [] :=
  ⟨by decide, by decide,
   C5_second_run_noop id ["s"] ["d"] [([], FsNode.dir 0), (["a"], FsNode.file [1] 1)]
     [([], FsNode.dir 0)] 10 true (fun l => List.Perm.refl l) (by decide) (by decide)
     (by decide) (by decide)⟩

end RustyFileSync
